import Mathlib

set_option maxHeartbeats 1000000

/-!
Verification development for the git_info_generator repository.

The Python sources under src/ are shallowly embedded below.  Python strings
are modelled as lists of characters (`Str`), subprocess calls to git as
explicit environment structures holding the raw textual output git would
produce, and Python exceptions as `Except` errors.  All definitions are
executable so that concrete runs of the embedded code can be evaluated.
-/

/-- Python strings, modelled as lists of characters. -/
abbrev Str := List Char

/-- Conversion of a Lean string literal into the `Str` model. -/
def str (s : String) : Str := s.data

/-- Whitespace test used by Python's `str.strip()` (default argument). -/
def isWS (c : Char) : Bool := c.isWhitespace

/-- Python `str.lstrip()`. -/
def lstrip (s : Str) : Str := s.dropWhile isWS

/-- Python `str.rstrip()`. -/
def rstrip (s : Str) : Str := (s.reverse.dropWhile isWS).reverse

/-- Python `str.strip()`: remove leading and trailing whitespace. -/
def pyStrip (s : Str) : Str := lstrip (rstrip s)

/-- Python `str.split(sep)` for a non-empty separator: split at every
occurrence of `sep`, keeping empty pieces (no collapsing). -/
def splitSep (sep : Str) : Str → List Str
  | [] => [[]]
  | x :: xs =>
    if h : sep ≠ [] ∧ sep.isPrefixOf (x :: xs) then
      [] :: splitSep sep (List.drop sep.length (x :: xs))
    else
      match splitSep sep xs with
      | [] => [[x]]
      | y :: ys => (x :: y) :: ys
termination_by s => s.length
decreasing_by
  · simp only [List.length_drop, List.length_cons]
    have : 0 < sep.length := List.length_pos.mpr h.1
    omega
  · simp

/-- Python `str.split(sep, maxsplit)`: split at most `n` times, the
remainder is kept whole as the final piece. -/
def splitSepN (sep : Str) : Nat → Str → List Str
  | _, [] => [[]]
  | 0, s => [s]
  | n + 1, x :: xs =>
    if h : sep ≠ [] ∧ sep.isPrefixOf (x :: xs) then
      [] :: splitSepN sep n (List.drop sep.length (x :: xs))
    else
      match splitSepN sep (n + 1) xs with
      | [] => [[x]]
      | y :: ys => (x :: y) :: ys
termination_by _ s => s.length
decreasing_by
  · simp only [List.length_drop, List.length_cons]
    have : 0 < sep.length := List.length_pos.mpr h.1
    omega
  · simp

/-- Whether `sep` occurs as a contiguous subsequence of `s` (Python `sep in s`
for non-empty `sep`). -/
def containsSeq (sep : Str) : Str → Bool
  | [] => false
  | x :: xs => sep.isPrefixOf (x :: xs) || containsSeq sep xs

/-- Output rendering of a git subprocess that prints one item per line
(`git log --format=%H`, `git tag --list`): each line followed by a newline. -/
def renderLines (ls : List Str) : Str := (ls.map (fun l => l ++ ['\n'])).join

/-- The line post-processing shared by `get_last_tag` and
`compose_build_commit_hash` in src/utils.py: decode, `.strip()`,
`.split("\n")`, strip each line, drop empty lines. -/
def parseLines (raw : Str) : List Str :=
  ((splitSep ['\n'] (pyStrip raw)).map pyStrip).filter (fun l => l ≠ [])

/-- One git commit, as far as the embedded tool observes it: its hash and
the path specs whose history it touches. -/
structure GCommit where
  hash : Str
  paths : List Str

/-- Whether a commit touches any of the given path specs (the semantics of
`git log -- <files>`: only membership in the path set matters, not order). -/
def touchesAny (files : List Str) (c : GCommit) : Bool :=
  c.paths.any fun p => decide (p ∈ files)

/-- The git repository state visible from the component root.  `commits` is
ordered newest first, exactly as `git log` prints it.  `tagsRaw fltr` is the
raw stdout of `git tag --list fltr --merged` (`none` models a
`CalledProcessError`).  `tagPos t` is the number of commits newer than the
commit that tag `t` points at (`none`: unknown revision). -/
structure GitState where
  commits : List GCommit
  tagsRaw : Str → Option Str
  tagPos : Str → Option Nat

/-- The commits `git log [tag..HEAD] --format=%H -- files` reports: the
commits touching the files, restricted to those newer than the tag when a
(truthy) tag is given.  `none` models a failing git call. -/
def commitsSince (st : GitState) (tag : Option Str) (files : List Str) :
    Option (List GCommit) :=
  match tag with
  | some t =>
    if t = [] then some (st.commits.filter (touchesAny files))
    else (st.tagPos t).map fun n => (st.commits.take n).filter (touchesAny files)
  | none => some (st.commits.filter (touchesAny files))

/-- Raw stdout of the `git log --format=%H` call made by
`compose_build_commit_hash`. -/
def gitLogRaw (st : GitState) (tag : Option Str) (files : List Str) : Option Str :=
  (commitsSince st tag files).map fun cs => renderLines (cs.map (·.hash))

/-- src/utils.py `get_last_tag`: parse the tag listing and return the last
line, or `none` when there is none (or the subprocess failed). -/
def getLastTag (raw : Option Str) : Option Str :=
  let tags := match raw with | none => [] | some r => parseLines r
  tags.getLast?

/-- Decimal rendering of a natural number, as Python's f-string writes it. -/
def natStr (n : Nat) : Str := (toString n).data

/-- src/utils.py `compose_build_commit_hash`: run `git log --format=%H`
(restricted to `tag..HEAD` when a truthy tag is given) over the files, count
the resulting hashes, and return `-<count>-<hash[:hash_limit]>` built from
the first (newest) hash, or the empty suffix when the count is zero. -/
def composeBuildCommitHash (st : GitState) (tag : Option Str) (files : List Str)
    (hashLimit : Nat) : Str :=
  let raw : Option Str := gitLogRaw st tag files
  let commitsHashes : List Str :=
    match raw with
    | none => []
    | some r => if r = [] then [] else parseLines r
  match commitsHashes with
  | [] => []
  | h :: t => str "-" ++ natStr (t.length + 1) ++ str "-" ++ h.take hashLimit

/-- src/git_component.py `GitComponent.__get_git_version`: last tag matching
the glob `<git_tab_prefix>*`, defaulting to the literal `0.0.1`, followed by
the build-commit-hash suffix. -/
def getGitVersion (st : GitState) (tagPrfx : Str) (files : List Str) (limit : Nat) : Str :=
  let lastTag := getLastTag (st.tagsRaw (tagPrfx ++ ['*']))
  let bch := composeBuildCommitHash st lastTag files limit
  (match lastTag with | some t => t | none => str "0.0.1") ++ bch

/-- The record delimiter of the structured git log format. -/
def recSep : Str := str "_#._"

/-- The field delimiter of the structured git log format. -/
def fieldSep : Str := str "|$.|"

/-- A commit record as parsed by src/utils.py `parse_commits` (six fields,
from `--format=_#._%H|$.|%aN|$.|%aI|$.|%s|$.|%ae|$.|%b`). -/
structure CommitRec where
  hash : Str
  author : Str
  time : Str
  subject : Str
  authorEmail : Str
  body : Str
deriving DecidableEq, Repr

/-- A commit record as parsed by src/git_component.py
`GitComponent._parse_commits` (five fields, no author email). -/
structure GcCommitRec where
  hash : Str
  author : Str
  time : Str
  subject : Str
  body : Str
deriving DecidableEq, Repr

/-- One record of src/utils.py `parse_commits`: split the stripped segment on
the field delimiter with maxsplit 5 and strip the six pieces; indexing a
shorter split raises IndexError. -/
def parseCommitRec (s : Str) : Except Str CommitRec :=
  match splitSepN fieldSep 5 s with
  | [a, b, c, d, e, f] =>
    .ok ⟨pyStrip a, pyStrip b, pyStrip c, pyStrip d, pyStrip e, pyStrip f⟩
  | _ => .error (str "IndexError")

/-- src/utils.py `parse_commits`: split on the record delimiter, skip
segments that strip to nothing, parse the rest. -/
def parseCommits (txt : Str) : Except Str (List CommitRec) :=
  (((splitSep recSep txt).map pyStrip).filter (fun l => l ≠ [])).mapM parseCommitRec

/-- One record of `GitComponent._parse_commits`: maxsplit 4, five fields. -/
def parseGcCommitRec (s : Str) : Except Str GcCommitRec :=
  match splitSepN fieldSep 4 s with
  | [a, b, c, d, e] => .ok ⟨pyStrip a, pyStrip b, pyStrip c, pyStrip d, pyStrip e⟩
  | _ => .error (str "IndexError")

/-- src/git_component.py `GitComponent._parse_commits`. -/
def parseCommitsGc (txt : Str) : Except Str (List GcCommitRec) :=
  (((splitSep recSep txt).map pyStrip).filter (fun l => l ≠ [])).mapM parseGcCommitRec

/-- The body of one rendered commit record (everything after the record
delimiter), following the six-field git format string. -/
def commitBody (c : CommitRec) : Str :=
  c.hash ++ fieldSep ++ c.author ++ fieldSep ++ c.time ++ fieldSep ++
    c.subject ++ fieldSep ++ c.authorEmail ++ fieldSep ++ c.body

/-- Raw git log text for a list of commits in the structured format
`--format=_#._%H|$.|%aN|$.|%aI|$.|%s|$.|%ae|$.|%b`. -/
def renderLog (cs : List CommitRec) : Str :=
  (cs.map (fun c => recSep ++ commitBody c)).join

/-- A commit with every field stripped: the expected parse result. -/
def stripCommit (c : CommitRec) : CommitRec :=
  ⟨pyStrip c.hash, pyStrip c.author, pyStrip c.time, pyStrip c.subject,
    pyStrip c.authorEmail, pyStrip c.body⟩

/-- What the five-field parser `_parse_commits` makes of a six-field record:
maxsplit 4 leaves the author email and the body merged in its final field. -/
def gcView (c : CommitRec) : GcCommitRec :=
  ⟨pyStrip c.hash, pyStrip c.author, pyStrip c.time, pyStrip c.subject,
    pyStrip (c.authorEmail ++ fieldSep ++ c.body)⟩

/-- Conditions under which the delimiters cannot occur (not even straddling
a field boundary) inside a rendered commit, mirroring the spec's assumption
that the delimiter sequences never appear in natural commit text. -/
def renderSafe (c : CommitRec) : Bool :=
  !containsSeq recSep (commitBody c ++ recSep.dropLast) &&
  !containsSeq fieldSep (lstrip c.hash ++ fieldSep.dropLast) &&
  !containsSeq fieldSep (c.author ++ fieldSep.dropLast) &&
  !containsSeq fieldSep (c.time ++ fieldSep.dropLast) &&
  !containsSeq fieldSep (c.subject ++ fieldSep.dropLast) &&
  !containsSeq fieldSep (c.authorEmail ++ fieldSep.dropLast)

/-- Filesystem events issued by the embedded file writers. -/
inductive FsEvent where
  | write (path content : Str)
  | flush (path : Str)
  | fsync (path : Str)
  | rename (src dst : Str)
  | fsyncDir (dir : Str)
deriving DecidableEq, Repr

/-- os.path.dirname, replaced by "." when empty, as in `write_cfg_file`. -/
def dirNameOrDot (p : Str) : Str :=
  match splitSep ['/'] p with
  | [] => str "."
  | [_] => str "."
  | parts => List.intercalate (str "/") parts.dropLast

/-- src/utils.py `write_cfg_file`: the sequence of filesystem operations it
performs — write the temp file, flush, fsync, atomically rename it over the
destination, fsync the containing directory.  `payload` is the serialized
JSON text. -/
def writeCfgFileTrace (filePath payload : Str) : List FsEvent :=
  [ .write (filePath ++ str ".tmp") payload,
    .flush (filePath ++ str ".tmp"),
    .fsync (filePath ++ str ".tmp"),
    .rename (filePath ++ str ".tmp") filePath,
    .fsyncDir (dirNameOrDot filePath) ]

/-- src/git_component.py `GitComponent._save_installation_info`: the version
record is dumped straight to the destination (`open(path, "w+")` followed by
`yaml.safe_dump`): a single direct write, no temp file, no rename, no fsync. -/
def saveInstallationInfoTrace (filePath payload : Str) : List FsEvent :=
  [ .write filePath payload ]

/-- Association-list lookup keyed by `Str` (insertion-ordered Python dict). -/
def alookup {β : Type} (l : List (Str × β)) (k : Str) : Option β :=
  (l.find? (fun e => decide (e.1 = k))).map (·.2)

/-- Apply a completed filesystem event to a path → content map. -/
def applyFsEvent (fs : List (Str × Str)) : FsEvent → List (Str × Str)
  | .write p c => (p, c) :: fs.filter (fun e => decide (e.1 ≠ p))
  | .flush _ => fs
  | .fsync _ => fs
  | .fsyncDir _ => fs
  | .rename s d =>
    match alookup fs s with
    | some c => (d, c) :: fs.filter (fun e => decide (e.1 ≠ s ∧ e.1 ≠ d))
    | none => fs

/-- All prefixes of a string: the possible on-disk contents of a file whose
in-progress write was interrupted by a crash. -/
def strTakes (s : Str) : List Str := (List.range (s.length + 1)).map fun n => s.take n

/-- Possible contents of the file `dest` observable after a crash at any
point of the trace: before each event, in the middle of a write to `dest`
(any prefix of the data may have reached the disk), or after the end. -/
def crashViews (dest : Str) (fs : List (Str × Str)) : List FsEvent → List (Option Str)
  | [] => [alookup fs dest]
  | e :: rest =>
    let mid : List (Option Str) :=
      match e with
      | .write p c => if p = dest then (strTakes c).map some else [alookup fs dest]
      | _ => [alookup fs dest]
    alookup fs dest :: mid ++ crashViews dest (applyFsEvent fs e) rest

/-- A Python value crossing the hashlib boundary. -/
inductive PyObj where
  | pystr (s : Str)
  | pybytes (bs : List Nat)
  | pydict (entries : List (Str × Str))
deriving DecidableEq, Repr

/-- `hashlib.md5().update(x)`: accepts a bytes-like object and raises
`TypeError` for anything else — in particular for `str`. -/
def hashUpdate : PyObj → Except Str Unit
  | .pybytes _ => .ok ()
  | _ => .error (str "TypeError")

/-- src/utils.py `compute_string_json_check_sum`: a non-string input is
first JSON serialized (`dumps` models `json.dumps`), then the resulting
*string* is handed to `update`, which rejects it.  The `.ok` digest value
below is unreachable. -/
def computeStringJsonCheckSum (dumps : PyObj → Str) (input : PyObj) :
    Except Str (Str × Str) :=
  let s : Str := match input with | .pystr t => t | v => dumps v
  match hashUpdate (.pystr s) with
  | .error e => .error e
  | .ok _ => .ok ([], [])

/-- Split a path string on "/" (the component view used by os.path). -/
def pathSplit (s : Str) : List Str := splitSep ['/'] s

/-- os.path.isabs. -/
def isAbsP (s : Str) : Bool :=
  match s with
  | '/' :: _ => true
  | _ => false

/-- os.path.join for two arguments. -/
def pathJoin (a b : Str) : Str :=
  if isAbsP b then b
  else if a = [] then b
  else if a.getLast? = some '/' then a ++ b
  else a ++ '/' :: b

/-- The normalized component list of an absolute path (os.path.abspath on an
already-absolute path = os.path.normpath): empty and "." components vanish,
".." pops the previous component (and vanishes at the root). -/
def normAbsParts (s : Str) : List Str :=
  (pathSplit s).foldl
    (fun acc comp =>
      if comp = [] ∨ comp = str "." then acc
      else if comp = str ".." then acc.dropLast
      else acc ++ [comp]) []

/-- Drop the common leading components and climb out of the rest of the base:
the component list of os.path.relpath. -/
def relSegs : List Str → List Str → List Str
  | t, [] => t
  | [], b => b.map fun _ => str ".."
  | x :: t', y :: b' =>
    if x = y then relSegs t' b'
    else ((y :: b').map fun _ => str "..") ++ (x :: t')

/-- os.path.relpath on normalized component lists, rendered as a string
("." for the empty relative path). -/
def relPathStr (t b : List Str) : Str :=
  match relSegs t b with
  | [] => str "."
  | parts => List.intercalate (str "/") parts

/-- The string form of an absolute path given by its components. -/
def absPathStr (parts : List Str) : Str := '/' :: List.intercalate (str "/") parts

/-- `os.path.relpath(os.path.abspath(os.path.join(root, e)), root)` — the
normalization applied to every location entry in
`GitComponent.__get_paths_to_git_check`. -/
def normalizeEntry (root e : Str) : Str :=
  relPathStr (normAbsParts (pathJoin root e)) (normAbsParts root)

/-- The filesystem facts consulted by the path checks. -/
structure FsEnv where
  pathExists : Str → Bool
  isLink : Str → Bool

/-- The first (deduplicating) loop of `__get_paths_to_git_check`: normalize
each entry, raise on a relative path that starts with "../", and append
first occurrences only. -/
def collectGitPaths (root : Str) (acc : List Str) : List Str → Except Str (List Str)
  | [] => .ok acc
  | e :: rest =>
    if (str "../").isPrefixOf (normalizeEntry root e) then
      .error (normalizeEntry root e ++ str " outside root location")
    else
      collectGitPaths root
        (if normalizeEntry root e ∈ acc then acc else acc ++ [normalizeEntry root e]) rest

/-- The second loop of `__get_paths_to_git_check`: every non-symlink path
must exist under the root. -/
def checkGitPathsExist (env : FsEnv) (root : Str) : List Str → Except Str Unit
  | [] => .ok ()
  | f :: rest =>
    if !env.isLink (pathJoin root f) ∧ !env.pathExists (pathJoin root f) then
      .error (str "File does not exist: " ++ pathJoin root f)
    else checkGitPathsExist env root rest

/-- src/git_component.py `GitComponent.__get_paths_to_git_check`. -/
def getPathsToGitCheck (env : FsEnv) (root : Str) (entries : List Str) :
    Except Str (List Str) := do
  let l ← collectGitPaths root [] entries
  let _ ← checkGitPathsExist env root l
  .ok l

/-- The whole version pipeline of `GitComponent.run`: resolve the location
entries, then compute the git version over them. -/
def composeVersionPipeline (st : GitState) (env : FsEnv) (root tagPrfx : Str)
    (limit : Nat) (entries : List Str) : Except Str Str := do
  let files ← getPathsToGitCheck env root entries
  .ok (getGitVersion st tagPrfx files limit)

/-- One copy location of the packaging loop: either a plain path or a
`{src, dst}` object. -/
inductive CopyEntry where
  | plain (s : Str)
  | pair (src dst : Str)
deriving DecidableEq, Repr

/-- The packaging copy loop of `GitComponent.process_cmds` (cmd == "pack"):
resolve each source against the location root, reject a source whose
relative path starts with "../", derive the destination inside `srcDir`,
reject a destination whose path relative to `packageDir` starts with "../",
and only then copy.  Returns the (src, dst) copies actually performed
together with the error that stopped the loop, if any. -/
def stageCopyTr (root srcDir packageDir : Str) :
    List CopyEntry → List (Str × Str) × Option Str
  | [] => ([], none)
  | e :: rest =>
    let s : Str := match e with | .plain s => s | .pair s _ => s
    let d? : Option Str := match e with | .plain _ => none | .pair _ d => some d
    let src := absPathStr (normAbsParts (pathJoin root s))
    let srcRel := relPathStr (normAbsParts src) (normAbsParts root)
    if (str "../").isPrefixOf srcRel then
      ([], some (srcRel ++ str " is outside location_root"))
    else
      let dst := match d? with
        | none => pathJoin srcDir srcRel
        | some d => pathJoin srcDir d
      let dstRel := relPathStr (normAbsParts dst) (normAbsParts packageDir)
      if (str "../").isPrefixOf dstRel then
        ([], some (str "DST=" ++ dstRel ++ str " is outside package_dir"))
      else
        let (ws, err) := stageCopyTr root srcDir packageDir rest
        ((src, dst) :: ws, err)

/-- The `current_version`-shaped dict of the state store.  The five scalar
fields are always written by `_save_installation_info`; `repos` is never
written by it, but a loaded record may carry one and the recursive
dict-merge preserves it. -/
structure VerInfo where
  hash : Str
  utctime : Str
  utcepoch : Int
  location : Str
  duration : Int
  repos : Option (List (Str × Str))
deriving DecidableEq, Repr

/-- The persisted per-component version record. -/
structure VersionRec where
  currentVersion : VerInfo
  previousVersion : Option VerInfo
  firstVersion : Option VerInfo
deriving DecidableEq, Repr

/-- `GitComponent._recursive_dict_update` restricted to the version-info
schema: the update's keys overwrite, the base's extra key (`repos`, the only
optional one) survives when the update lacks it. -/
def mergeVerInfo (base : Option VerInfo) (upd : VerInfo) : VerInfo :=
  { upd with repos := match upd.repos with
      | some r => some r
      | none => match base with | some b => b.repos | none => none }

/-- src/git_component.py `GitComponent._save_installation_info`: build the
new `current_version`, move the old one to `previous_version` on update (or
copy it to `first_version` on install), and deep-merge into the old record. -/
def saveInstallationInfo (finalHash location : Str) (duration : Int)
    (time : Str) (epoch : Int) (update : Bool) (old : Option VersionRec) :
    Except Str VersionRec :=
  let cur : VerInfo :=
    { hash := finalHash, utctime := time, utcepoch := epoch,
      location := location, duration := duration, repos := none }
  if update then
    match old with
    | none => .error (str "TypeError")
    | some o =>
      .ok { currentVersion := mergeVerInfo (some o.currentVersion) cur,
            previousVersion := some (mergeVerInfo o.previousVersion o.currentVersion),
            firstVersion := o.firstVersion }
  else
    match old with
    | none => .ok { currentVersion := cur, previousVersion := none, firstVersion := some cur }
    | some o =>
      .ok { currentVersion := mergeVerInfo (some o.currentVersion) cur,
            previousVersion := o.previousVersion,
            firstVersion := some (mergeVerInfo o.firstVersion cur) }

/-- src/git_component.py `GitComponent._run_scripts` (elapsed time elided):
run the scripts in order, stop at the first non-zero exit code and return
it, also reporting how many scripts were started. -/
def runScripts : List Int → Int × Nat
  | [] => (0, 0)
  | c :: rest =>
    if c ≠ 0 then (c, 1)
    else
      let p := runScripts rest
      (p.1, p.2 + 1)

/-- The command-line switches consulted by the install/update flow. -/
structure RunArgs where
  installCheck : Bool
  updateCheck : Bool
deriving DecidableEq, Repr

/-- The ambient data of one `GitComponent.run` invocation: the computed
version, the configured hook scripts (each modelled by its exit code), the
wall-clock readings and the config-file location. -/
structure RunCtx where
  version : Str
  installScripts : List Int
  updateScripts : List Int
  instTime : Str
  instEpoch : Int
  instDuration : Int
  updDuration : Int
  cfgLocation : Str

/-- The observable outcome of the install/update flow. -/
structure RunOut where
  exitCode : Int
  store : Option VersionRec
  installScriptsRun : Nat
  updateScriptsRun : Nat
  justInstalled : Bool
  justUpdated : Bool
deriving DecidableEq, Repr

/-- The install/update portion of `GitComponent.run` (lines 562–625): when
the component is unseen run the install scripts and persist on success; when
the stored hash equals the computed version do nothing; otherwise run the
update scripts and persist (update-style) on success.  A failing script
sequence ends the run with its exit code and leaves the store untouched. -/
def runInstallUpdate (a : RunArgs) (ctx : RunCtx) (stored : Option VersionRec) :
    Except Str RunOut :=
  let info0 : Option VersionRec := if a.installCheck ∨ a.updateCheck then stored else none
  let instPhase : Except Str (Option VersionRec × Bool × Nat × Option Int) :=
    if a.installCheck ∧ info0 = none then
      if ctx.installScripts = [] then .ok (info0, false, 0, none)
      else
        let r := runScripts ctx.installScripts
        if r.1 = 0 then
          match saveInstallationInfo ctx.version ctx.cfgLocation ctx.instDuration
              ctx.instTime ctx.instEpoch false none with
          | .ok inf => .ok (some inf, true, r.2, none)
          | .error e => .error e
        else .ok (info0, false, r.2, some r.1)
    else .ok (info0, false, 0, none)
  match instPhase with
  | .error e => .error e
  | .ok (info1, justInstalled, nInst, earlyExit) =>
    match earlyExit with
    | some code =>
      .ok { exitCode := code, store := stored, installScriptsRun := nInst,
            updateScriptsRun := 0, justInstalled := false, justUpdated := false }
    | none =>
      let storeAfterInstall : Option VersionRec := if justInstalled then info1 else stored
      if a.updateCheck ∧ info1 ≠ none ∧ ¬justInstalled then
        match info1 with
        | none => .error (str "unreachable")
        | some r =>
          if r.currentVersion.hash = ctx.version then
            .ok { exitCode := 0, store := storeAfterInstall, installScriptsRun := nInst,
                  updateScriptsRun := 0, justInstalled := justInstalled, justUpdated := false }
          else if ctx.updateScripts = [] then
            .ok { exitCode := 0, store := storeAfterInstall, installScriptsRun := nInst,
                  updateScriptsRun := 0, justInstalled := justInstalled, justUpdated := false }
          else
            let r2 := runScripts ctx.updateScripts
            if r2.1 = 0 then
              match saveInstallationInfo ctx.version ctx.cfgLocation ctx.updDuration
                  ctx.instTime ctx.instEpoch true (some r) with
              | .ok inf =>
                .ok { exitCode := 0, store := some inf, installScriptsRun := nInst,
                      updateScriptsRun := r2.2, justInstalled := justInstalled,
                      justUpdated := true }
              | .error e => .error e
            else
              .ok { exitCode := r2.1, store := storeAfterInstall, installScriptsRun := nInst,
                    updateScriptsRun := r2.2, justInstalled := justInstalled,
                    justUpdated := false }
      else
        .ok { exitCode := 0, store := storeAfterInstall, installScriptsRun := nInst,
              updateScriptsRun := 0, justInstalled := justInstalled, justUpdated := false }

/-- One entry of the git_component changelog file (`history` list items). -/
structure GcEntry where
  hash : Str
  utcepoch : Int
  utctime : Str
  changelog : List (Str × List GcCommitRec)
  repos : List (Str × Str)
  location : Str
deriving DecidableEq, Repr

/-- The git_component changelog file. -/
structure GcClFile where
  history : List GcEntry
deriving DecidableEq, Repr

/-- The git world consulted by the changelog extraction loops: the component
locations, the remote url of each location's repository (stripped ls-remote
output, empty = failure) and the raw structured log text for a location and
an optional `ref..HEAD` restriction. -/
structure ClEnv where
  locations : List Str
  remoteUrl : Str → Str
  logRaw : Str → Option Str → Str

/-- Append `v` to the group of key `k`, preserving insertion order (Python
`changelog[repo].append(commit)` over an insertion-ordered dict). -/
def groupAppend {α : Type} (l : List (Str × List α)) (k : Str) (v : α) :
    List (Str × List α) :=
  match l with
  | [] => [(k, [v])]
  | (k', vs) :: rest =>
    if k' = k then (k', vs ++ [v]) :: rest else (k', vs) :: groupAppend rest k v

/-- Deduplicate a parsed commit list into the running groups, skipping any
hash already seen in this run. -/
def dedupInsert {α : Type} (hashOf : α → Str) (repo : Str) :
    List α → List Str × List (Str × List α) → List Str × List (Str × List α)
  | [], st => st
  | c :: cs, (seen, groups) =>
    if hashOf c ∈ seen then dedupInsert hashOf repo cs (seen, groups)
    else dedupInsert hashOf repo cs (seen ++ [hashOf c], groupAppend groups repo c)

/-- The per-location extraction loop of the changelog branch of
`GitComponent.run`: get the remote url, restrict the log to
`repos[repo]..HEAD` when the repo has a recorded reference, parse with the
five-field parser and deduplicate across the whole run. -/
def gcExtract (env : ClEnv) (repos : List (Str × Str)) :
    List Str → List Str × List (Str × List GcCommitRec) →
    Except Str (List Str × List (Str × List GcCommitRec))
  | [], st => .ok st
  | loc :: rest, st =>
    let url := env.remoteUrl loc
    if url = [] then .error (str "Could not get git remote repo")
    else
      match parseCommitsGc (pyStrip (env.logRaw loc (alookup repos url))) with
      | .error e => .error e
      | .ok commits => gcExtract env repos rest (dedupInsert GcCommitRec.hash url commits st)

/-- The changelog branch of `GitComponent.run` (lines 626–692): skip when
the newest history entry already carries the computed hash; on a detected
first install reset the history and extract from the beginning of history,
otherwise extract since the previous version's recorded repo positions;
prepend the new entry.  Missing dict keys raise KeyError. -/
def gcChangelog (env : ClEnv) (old : GcClFile) (info : VersionRec)
    (finalHash cmpFileName : Str) : Except Str GcClFile :=
  if old.history.head?.map (·.hash) = some finalHash then .ok old
  else
    let firstInstall := (info.firstVersion.map (·.hash)) = some finalHash
    let baseRepos : Except Str (GcClFile × List (Str × Str)) :=
      if firstInstall then .ok (⟨[]⟩, [])
      else
        match info.previousVersion with
        | none => .error (str "KeyError: previous_version")
        | some p =>
          match p.repos with
          | none => .error (str "KeyError: repos")
          | some rs => .ok (old, rs)
    match baseRepos with
    | .error e => .error e
    | .ok (base, repos) =>
      match gcExtract env repos env.locations ([], []) with
      | .error e => .error e
      | .ok (_, changelog) =>
        match info.currentVersion.repos with
        | none => .error (str "KeyError: repos")
        | some curRepos =>
          .ok ⟨{ hash := finalHash, utcepoch := info.currentVersion.utcepoch,
                 utctime := info.currentVersion.utctime, changelog := changelog,
                 repos := curRepos, location := cmpFileName } :: base.history⟩

/-- The value stored in `final_hash` by gen_simple_changelog: a single
repo's commit hash (a string), or — had `compute_string_json_check_sum`
returned — its digest pair.  Python's `==` across the two shapes is False,
matching `Sum` disequality. -/
abbrev HashVal := Str ⊕ (Str × Str)

/-- One entry of the gen_simple_changelog history. -/
structure ClEntry where
  finalHash : HashVal
  generatedAt : Str
  changelogFormat : Str
  repos : List (Str × Str)
  changelog : List (Str × List CommitRec)
  usedReferences : List (Str × Str)
deriving DecidableEq, Repr

/-- The gen_simple_changelog changelog file. -/
structure ClFile where
  history : List ClEntry
  name : Str
deriving DecidableEq, Repr

/-- gen_simple_changelog environment: component locations, remote-url and
latest-commit queries, the structured log text, the `-F LOCATION:REF`
overrides and the JSON serializer. -/
structure SEnv where
  locations : List Str
  remoteUrl : Str → Str
  logLatest : Str → Str
  logRaw : Str → Option Str → Str
  changeLogFrom : List (Str × Str)
  dumps : PyObj → Str

/-- src/gen_simple_changelog.py `GitComponent._get_repo_hash`: one latest
commit hash per distinct remote url, the first location under a remote
determining its hash. -/
def getRepoHash (env : SEnv) : List Str → List (Str × Str) → Except Str (List (Str × Str))
  | [], repos => .ok repos
  | loc :: rest, repos =>
    let url := env.remoteUrl loc
    if url = [] then .error (str "Could not get git remote repo")
    else
      match alookup repos url with
      | some _ => getRepoHash env rest repos
      | none =>
        let h := env.logLatest loc
        if h = [] then .error (str "Could not get git commit")
        else getRepoHash env rest (repos ++ [(url, h)])

/-- The `final_hash` computation of `_cmd_gen_changelog`: the single repo's
hash when exactly one repo was found, otherwise the checksum of the repos
dict. -/
def finalHashOf (dumps : PyObj → Str) (repos : List (Str × Str)) : Except Str HashVal :=
  match repos with
  | [(_, h)] => .ok (.inl h)
  | rs => (computeStringJsonCheckSum dumps (.pydict rs)).map .inr

/-- Association-list "dict assignment": overwrite or append. -/
def aset (l : List (Str × Str)) (k v : Str) : List (Str × Str) :=
  match l with
  | [] => [(k, v)]
  | (k', v') :: rest => if k' = k then (k, v) :: rest else (k', v') :: aset rest k v

/-- The per-location extraction loop of `_cmd_gen_changelog`: the reference
point comes from the previous run's repos or the `-F` overrides (a falsy
reference counts as absent), parsing uses the six-field parser, commit
hashes are deduplicated across the whole run and the used references are
recorded per repo. -/
def sExtract (env : SEnv) (previousRepos : List (Str × Str)) :
    List Str →
    List Str × List (Str × List CommitRec) × List (Str × Str) →
    Except Str (List Str × List (Str × List CommitRec) × List (Str × Str))
  | [], st => .ok st
  | loc :: rest, (seen, groups, usedRefs) =>
    let url := env.remoteUrl loc
    if url = [] then .error (str "Could not get git remote repo")
    else
      let usedRef0 : Option Str :=
        match alookup previousRepos url with
        | some r => some r
        | none => alookup env.changeLogFrom loc
      let usedRef : Option Str :=
        match usedRef0 with
        | some r => if r = [] then none else some r
        | none => none
      let usedRefs' := match usedRef with
        | some r => aset usedRefs url r
        | none => usedRefs
      match parseCommits (pyStrip (env.logRaw loc usedRef)) with
      | .error e => .error e
      | .ok commits =>
        let st' := dedupInsert CommitRec.hash url commits (seen, groups)
        sExtract env previousRepos rest (st'.1, st'.2, usedRefs')

/-- src/gen_simple_changelog.py `GitComponent._cmd_gen_changelog`: compute
the repo hashes and the aggregate final hash, skip when the newest history
entry already stores that hash, otherwise extract the per-repo logs and
prepend a new history entry. -/
def cmdGenChangelog (env : SEnv) (file : ClFile) (genAt : Str) : Except Str ClFile :=
  match getRepoHash env env.locations [] with
  | .error e => .error e
  | .ok repos =>
    match finalHashOf env.dumps repos with
    | .error e => .error e
    | .ok fh =>
      if file.history.head?.map (·.finalHash) = some fh then .ok file
      else
        let previousRepos := match file.history.head? with
          | some e => e.repos
          | none => []
        match sExtract env previousRepos env.locations ([], [], []) with
        | .error e => .error e
        | .ok (_, changelog, usedRefs) =>
          .ok { file with history :=
            { finalHash := fh, generatedAt := genAt,
              changelogFormat := str "v1.0.0", repos := repos,
              changelog := changelog, usedReferences := usedRefs } :: file.history }

/-- The aggregate final-hash computation of `_cmd_gen_changelog` in
isolation: repo discovery followed by `finalHashOf`. -/
def finalHashPipeline (env : SEnv) : Except Str HashVal :=
  match getRepoHash env env.locations [] with
  | .error e => .error e
  | .ok repos => finalHashOf env.dumps repos

/-- The newline-joined form of a line list (no trailing newline); the shape
`pyStrip` leaves of a rendered subprocess output. -/
def interNL : List Str → Str
  | [] => []
  | [l] => l
  | l :: rest => l ++ '\n' :: interNL rest

/-- The build suffix the specification describes: empty when no commit
touches the paths since the tag, else `-<count>-<newestHash[:limit]>`. -/
def expectedSuffix (limit : Nat) : List GCommit → Str
  | [] => []
  | c :: rest => str "-" ++ natStr (rest.length + 1) ++ str "-" ++ c.hash.take limit

theorem containsSeq_of_append_left {sep t : Str} : ∀ {a : Str},
    containsSeq sep (a ++ t) = false → containsSeq sep a = false
  | [], _ => by
    cases sep <;> rfl
  | x :: xs, h => by
    simp only [List.cons_append, containsSeq, Bool.or_eq_false_iff] at h ⊢
    refine ⟨?_, containsSeq_of_append_left h.2⟩
    by_contra hc
    rw [Bool.not_eq_false] at hc
    have hp : sep <+: (x :: xs) ++ t :=
      (List.isPrefixOf_iff_prefix.mp hc).trans (List.prefix_append _ _)
    have h2 := List.isPrefixOf_iff_prefix.mpr hp
    rw [List.cons_append] at h2
    simp only [List.append_eq] at h
    rw [h.1] at h2
    exact Bool.false_ne_true h2

theorem isPrefixOf_false_of_extend {sep : Str} (x : Char) (a' b : Str) (hsep : sep ≠ [])
    (h : sep.isPrefixOf ((x :: a') ++ sep.dropLast) = false) :
    sep.isPrefixOf ((x :: a') ++ sep ++ b) = false := by
  by_contra hc
  rw [Bool.not_eq_false] at hc
  have hpre : sep <+: (x :: a') ++ sep ++ b := List.isPrefixOf_iff_prefix.mp hc
  have hmid : (x :: a') ++ sep.dropLast <+: (x :: a') ++ sep ++ b := by
    obtain ⟨r, hr⟩ : sep.dropLast <+: sep := List.dropLast_prefix sep
    refine ⟨r ++ b, ?_⟩
    calc ((x :: a') ++ sep.dropLast) ++ (r ++ b)
        = (x :: a') ++ ((sep.dropLast ++ r) ++ b) := by simp [List.append_assoc]
      _ = (x :: a') ++ sep ++ b := by rw [hr, List.append_assoc]
  have hlen : sep.length ≤ ((x :: a') ++ sep.dropLast).length := by
    have : 0 < sep.length := List.length_pos.mpr hsep
    simp only [List.length_append, List.length_cons, List.length_dropLast]
    omega
  have hfin := List.isPrefixOf_iff_prefix.mpr
    (List.prefix_of_prefix_length_le hpre hmid hlen)
  rw [h] at hfin
  exact Bool.false_ne_true hfin

theorem splitSep_append (sep b : Str) (hsep : sep ≠ []) : ∀ (a : Str),
    containsSeq sep (a ++ sep.dropLast) = false →
    splitSep sep (a ++ sep ++ b) = a :: splitSep sep b
  | [], _ => by
    obtain ⟨s, ss, rfl⟩ : ∃ s ss, sep = s :: ss := by
      cases sep with
      | nil => exact absurd rfl hsep
      | cons s ss => exact ⟨s, ss, rfl⟩
    simp only [List.nil_append, List.cons_append]
    rw [splitSep]
    rw [dif_pos ⟨hsep, List.isPrefixOf_iff_prefix.mpr
      (by rw [← List.cons_append]; exact List.prefix_append _ _)⟩]
    rw [← List.cons_append, List.drop_left]
  | x :: a', h => by
    have h' : (sep.isPrefixOf (x :: (a' ++ sep.dropLast)) = false) ∧
        containsSeq sep (a' ++ sep.dropLast) = false := by
      simpa only [List.cons_append, containsSeq, Bool.or_eq_false_iff] using h
    have hguard : sep.isPrefixOf (x :: (a' ++ (sep ++ b))) = false := by
      have hg := isPrefixOf_false_of_extend x a' b hsep (by simpa using h'.1)
      simpa [List.append_assoc] using hg
    show splitSep sep ((x :: a') ++ sep ++ b) = (x :: a') :: splitSep sep b
    have hx : (x :: a') ++ sep ++ b = x :: (a' ++ (sep ++ b)) := by
      simp [List.append_assoc]
    rw [hx, splitSep, dif_neg (fun hcon => Bool.false_ne_true (hguard ▸ hcon.2))]
    have ih := splitSep_append sep b hsep a' h'.2
    rw [show a' ++ sep ++ b = a' ++ (sep ++ b) by simp [List.append_assoc]] at ih
    rw [ih]

theorem splitSep_eq_single : ∀ (sep a : Str), containsSeq sep a = false → splitSep sep a = [a]
  | _, [], _ => by rw [splitSep]
  | sep, x :: xs, h => by
    have h' : sep.isPrefixOf (x :: xs) = false ∧ containsSeq sep xs = false := by
      simpa only [containsSeq, Bool.or_eq_false_iff] using h
    rw [splitSep, dif_neg (fun hcon => Bool.false_ne_true (h'.1 ▸ hcon.2))]
    rw [splitSep_eq_single sep xs h'.2]

theorem splitSepN_zero (sep s : Str) : splitSepN sep 0 s = [s] := by
  cases s <;> simp [splitSepN]

theorem splitSepN_append (sep b : Str) (n : Nat) (hsep : sep ≠ []) : ∀ (a : Str),
    containsSeq sep (a ++ sep.dropLast) = false →
    splitSepN sep (n + 1) (a ++ sep ++ b) = a :: splitSepN sep n b
  | [], _ => by
    obtain ⟨s, ss, rfl⟩ : ∃ s ss, sep = s :: ss := by
      cases sep with
      | nil => exact absurd rfl hsep
      | cons s ss => exact ⟨s, ss, rfl⟩
    simp only [List.nil_append, List.cons_append]
    rw [splitSepN]
    rw [dif_pos ⟨hsep, List.isPrefixOf_iff_prefix.mpr
      (by rw [← List.cons_append]; exact List.prefix_append _ _)⟩]
    rw [← List.cons_append, List.drop_left]
  | x :: a', h => by
    have h' : (sep.isPrefixOf (x :: (a' ++ sep.dropLast)) = false) ∧
        containsSeq sep (a' ++ sep.dropLast) = false := by
      simpa only [List.cons_append, containsSeq, Bool.or_eq_false_iff] using h
    have hguard : sep.isPrefixOf (x :: (a' ++ (sep ++ b))) = false := by
      have hg := isPrefixOf_false_of_extend x a' b hsep (by simpa using h'.1)
      simpa [List.append_assoc] using hg
    show splitSepN sep (n + 1) ((x :: a') ++ sep ++ b) = (x :: a') :: splitSepN sep n b
    have hx : (x :: a') ++ sep ++ b = x :: (a' ++ (sep ++ b)) := by
      simp [List.append_assoc]
    rw [hx, splitSepN, dif_neg (fun hcon => Bool.false_ne_true (hguard ▸ hcon.2))]
    have ih := splitSepN_append sep b n hsep a' h'.2
    rw [show a' ++ sep ++ b = a' ++ (sep ++ b) by simp [List.append_assoc]] at ih
    rw [ih]

theorem dropWhile_eq_self_nonws : ∀ (s : Str), (∀ c ∈ s, isWS c = false) → s.dropWhile isWS = s
  | [], _ => rfl
  | x :: xs, h => by
    simp [List.dropWhile_cons, h x (by simp)]

theorem lstrip_append (a b : Str) :
    lstrip (a ++ b) = if lstrip a = [] then lstrip b else lstrip a ++ b := by
  induction a with
  | nil => simp [lstrip]
  | cons x xs ih =>
    by_cases hx : isWS x = true
    · simp only [lstrip, List.cons_append, List.dropWhile_cons, hx, if_true] at ih ⊢
      exact ih
    · rw [Bool.not_eq_true] at hx
      simp only [lstrip, List.cons_append, List.dropWhile_cons, hx]
      simp

theorem rstrip_append (a b : Str) :
    rstrip (a ++ b) = if rstrip b = [] then rstrip a else a ++ rstrip b := by
  unfold rstrip
  rw [List.reverse_append]
  have h := lstrip_append b.reverse a.reverse
  unfold lstrip at h
  rw [h]
  by_cases hb : b.reverse.dropWhile isWS = []
  · simp [hb]
  · simp [hb, List.reverse_append]

theorem rstrip_nonws_last (a : Str) (c : Char) (hc : isWS c = false) :
    rstrip (a ++ [c]) = a ++ [c] := by
  unfold rstrip
  rw [List.reverse_append]
  simp [List.dropWhile_cons, hc]

theorem dropWhile_idem (p : Char → Bool) : ∀ (s : Str),
    (s.dropWhile p).dropWhile p = s.dropWhile p
  | [] => rfl
  | x :: xs => by
    by_cases hx : p x = true
    · simp [List.dropWhile_cons, hx, dropWhile_idem p xs]
    · rw [Bool.not_eq_true] at hx
      simp [List.dropWhile_cons, hx]

theorem rstrip_idem (s : Str) : rstrip (rstrip s) = rstrip s := by
  unfold rstrip
  rw [List.reverse_reverse, dropWhile_idem]

theorem pyStrip_rstrip (s : Str) : pyStrip (rstrip s) = pyStrip s := by
  unfold pyStrip
  rw [rstrip_idem]

theorem rstrip_singleton_ws (c : Char) (hc : isWS c = true) : rstrip [c] = [] := by
  unfold rstrip
  simp [List.dropWhile_cons, hc]

theorem pyStrip_lstrip : ∀ (s : Str), pyStrip (lstrip s) = pyStrip s
  | [] => rfl
  | c :: t => by
    by_cases hc : isWS c = true
    · have h1 : lstrip (c :: t) = lstrip t := by
        simp [lstrip, List.dropWhile_cons, hc]
      rw [h1, pyStrip_lstrip t]
      unfold pyStrip
      have h2 : rstrip (c :: t) = if rstrip t = [] then rstrip [c] else [c] ++ rstrip t := by
        simpa using rstrip_append [c] t
      rw [h2]
      by_cases ht : rstrip t = []
      · simp [ht, rstrip_singleton_ws c hc]
      · simp only [ht, if_neg, List.singleton_append]
        simp [lstrip, List.dropWhile_cons, hc, ht]
    · have h1 : lstrip (c :: t) = c :: t := by
        rw [Bool.not_eq_true] at hc
        simp [lstrip, List.dropWhile_cons, hc]
      rw [h1]

theorem pyStrip_eq_self (s : Str) (h : ∀ c ∈ s, isWS c = false) : pyStrip s = s := by
  unfold pyStrip rstrip lstrip
  rw [dropWhile_eq_self_nonws s.reverse (by intro c hc; exact h c (List.mem_reverse.mp hc)),
    List.reverse_reverse, dropWhile_eq_self_nonws s h]

theorem containsSeq_singleton_false (c : Char) : ∀ (s : Str),
    (∀ a ∈ s, a ≠ c) → containsSeq [c] s = false
  | [], _ => rfl
  | x :: xs, h => by
    simp only [containsSeq, Bool.or_eq_false_iff]
    refine ⟨?_, containsSeq_singleton_false c xs (fun a ha => h a (by simp [ha]))⟩
    have hx : x ≠ c := h x (by simp)
    simp only [List.isPrefixOf, Bool.and_eq_false_iff]
    left
    simpa [beq_eq_false_iff_ne] using fun hcx => hx hcx.symm

theorem lstrip_eq_self (s : Str) (h : ∀ c ∈ s, isWS c = false) : lstrip s = s :=
  dropWhile_eq_self_nonws s h

theorem rstrip_eq_self (s : Str) (h : ∀ c ∈ s, isWS c = false) : rstrip s = s := by
  unfold rstrip
  rw [dropWhile_eq_self_nonws s.reverse (fun c hc => h c (List.mem_reverse.mp hc)),
    List.reverse_reverse]

theorem interNL_ne_nil (l : Str) (rest : List Str) (hl : l ≠ []) :
    interNL (l :: rest) ≠ [] := by
  cases rest with
  | nil => simpa [interNL] using hl
  | cons r rs => simp [interNL]

theorem rstrip_renderLines : ∀ (ls : List Str),
    (∀ l ∈ ls, l ≠ [] ∧ ∀ c ∈ l, isWS c = false) →
    rstrip (renderLines ls) = interNL ls
  | [], _ => rfl
  | [l], h => by
    have hl := h l (by simp)
    have hr : renderLines [l] = l ++ ['\n'] := by simp [renderLines]
    rw [hr, rstrip_append l ['\n'], if_pos (rstrip_singleton_ws '\n' (by decide)),
      rstrip_eq_self l hl.2]
    rfl
  | l :: r :: rs, h => by
    have hl := h l (by simp)
    have hrest : ∀ x ∈ r :: rs, x ≠ [] ∧ ∀ c ∈ x, isWS c = false :=
      fun x hx => h x (by simp [hx])
    have hrender : renderLines (l :: r :: rs) = (l ++ ['\n']) ++ renderLines (r :: rs) := by
      simp [renderLines]
    rw [hrender, rstrip_append (l ++ ['\n']) (renderLines (r :: rs)),
      rstrip_renderLines (r :: rs) hrest,
      if_neg (interNL_ne_nil r rs (hrest r (by simp)).1)]
    show (l ++ ['\n']) ++ interNL (r :: rs) = interNL (l :: r :: rs)
    simp [interNL]

theorem lstrip_interNL (ls : List Str)
    (h : ∀ l ∈ ls, l ≠ [] ∧ ∀ c ∈ l, isWS c = false) :
    lstrip (interNL ls) = interNL ls := by
  cases ls with
  | nil => rfl
  | cons l rest =>
    have hl := h l (by simp)
    obtain ⟨c, l', rfl⟩ : ∃ c l', l = c :: l' := by
      cases l with
      | nil => exact absurd rfl hl.1
      | cons c l' => exact ⟨c, l', rfl⟩
    have hc : isWS c = false := hl.2 c (by simp)
    cases rest with
    | nil =>
      show lstrip (c :: l') = c :: l'
      simp [lstrip, List.dropWhile_cons, hc]
    | cons r rs =>
      show lstrip ((c :: l') ++ '\n' :: interNL (r :: rs)) = _
      simp [lstrip, List.dropWhile_cons, hc, interNL]

theorem pyStrip_renderLines (ls : List Str)
    (h : ∀ l ∈ ls, l ≠ [] ∧ ∀ c ∈ l, isWS c = false) :
    pyStrip (renderLines ls) = interNL ls := by
  unfold pyStrip
  rw [rstrip_renderLines ls h]
  exact lstrip_interNL ls h

theorem splitSep_interNL : ∀ (ls : List Str),
    (∀ l ∈ ls, ∀ c ∈ l, c ≠ '\n') →
    ls ≠ [] → splitSep ['\n'] (interNL ls) = ls
  | [], _, hne => absurd rfl hne
  | [l], h, _ => by
    show splitSep ['\n'] l = [l]
    exact splitSep_eq_single _ l (containsSeq_singleton_false '\n' l (h l (by simp)))
  | l :: r :: rs, h, _ => by
    show splitSep ['\n'] (l ++ '\n' :: interNL (r :: rs)) = l :: r :: rs
    have hpeel := splitSep_append ['\n'] (interNL (r :: rs)) (by decide) l
      (by simpa using containsSeq_singleton_false '\n' l (h l (by simp)))
    rw [show l ++ ['\n'] ++ interNL (r :: rs) = l ++ '\n' :: interNL (r :: rs) by simp] at hpeel
    rw [hpeel, splitSep_interNL (r :: rs) (fun x hx c hc => h x (by simp [hx]) c hc) (by simp)]

theorem map_pyStrip_id (xs : List Str) (h : ∀ x ∈ xs, ∀ c ∈ x, isWS c = false) :
    xs.map pyStrip = xs := by
  induction xs with
  | nil => rfl
  | cons a as ih =>
    simp only [List.map_cons, pyStrip_eq_self a (h a (by simp)),
      ih (fun x hx => h x (by simp [hx]))]

theorem parseLines_renderLines (ls : List Str)
    (h : ∀ l ∈ ls, l ≠ [] ∧ ∀ c ∈ l, isWS c = false) :
    parseLines (renderLines ls) = ls := by
  unfold parseLines
  rw [pyStrip_renderLines ls h]
  cases ls with
  | nil => simp [interNL, splitSep, pyStrip, lstrip, rstrip]
  | cons l rest =>
    rw [splitSep_interNL (l :: rest)
      (fun x hx c hc => by
        have hws := (h x hx).2 c hc
        intro hcEq
        rw [hcEq] at hws
        exact absurd hws (by decide))
      (by simp)]
    rw [map_pyStrip_id (l :: rest) (fun x hx => (h x hx).2)]
    rw [List.filter_eq_self.mpr (fun a ha => by simpa using (h a ha).1)]

/-- Claim C1: for every git state, tag prefix, path list and hash limit, the
composed version string equals the last matching tag (or the hard-coded
default `0.0.1` when no tag matches) with an empty build suffix when zero
commits touch the paths since the tag, and otherwise that tag followed by
`-<count>-<hash truncated to hash_limit characters>` where `count` is the
number of commits touching the paths since the tag and `hash` is the newest
such commit's hash. -/
theorem c1_version_composition (st : GitState) (tagPrfx : Str) (files : List Str)
    (limit : Nat) (tagList : List Str) (cs : List GCommit)
    (hraw : st.tagsRaw (tagPrfx ++ ['*']) = some (renderLines tagList))
    (htags : ∀ t ∈ tagList, t ≠ [] ∧ ∀ c ∈ t, isWS c = false)
    (hhashes : ∀ c ∈ cs, c.hash ≠ [] ∧ ∀ ch ∈ c.hash, isWS ch = false)
    (hsince : commitsSince st tagList.getLast? files = some cs) :
    getGitVersion st tagPrfx files limit =
      (tagList.getLast?.getD (str "0.0.1")) ++ expectedSuffix limit cs := by
  have hlast : getLastTag (st.tagsRaw (tagPrfx ++ ['*'])) = tagList.getLast? := by
    rw [hraw]
    show (parseLines (renderLines tagList)).getLast? = tagList.getLast?
    rw [parseLines_renderLines tagList htags]
  have hcompose : composeBuildCommitHash st tagList.getLast? files limit =
      expectedSuffix limit cs := by
    unfold composeBuildCommitHash gitLogRaw
    rw [hsince]
    cases cs with
    | nil => simp [renderLines, expectedSuffix]
    | cons c rest =>
      have hne : renderLines ((c :: rest).map (·.hash)) ≠ [] := by
        simp [renderLines]
      have hclean : ∀ l ∈ (c :: rest).map (·.hash), l ≠ [] ∧ ∀ ch ∈ l, isWS ch = false := by
        intro l hl
        obtain ⟨cc, hcc, rfl⟩ := List.mem_map.mp hl
        exact hhashes cc hcc
      simp only [Option.map_some']
      rw [if_neg hne, parseLines_renderLines ((c :: rest).map (·.hash)) hclean]
      simp [expectedSuffix]
  show (match getLastTag (st.tagsRaw (tagPrfx ++ ['*'])) with
        | some t => t
        | none => str "0.0.1") ++
      composeBuildCommitHash st (getLastTag (st.tagsRaw (tagPrfx ++ ['*']))) files limit =
      (tagList.getLast?.getD (str "0.0.1")) ++ expectedSuffix limit cs
  rw [hlast, hcompose]
  cases tagList.getLast? <;> rfl

/-- Witness for C1: a repository with one tag `v1.0` and one commit touching
path `a` after it composes the version `v1.0-1-abc1234`. -/
theorem c1_version_composition_witness :
    getGitVersion
      { commits := [⟨str "abc1234def", [str "a"]⟩, ⟨str "999", [str "b"]⟩],
        tagsRaw := fun q => if q = str "v*" then some (renderLines [str "v1.0"]) else none,
        tagPos := fun t => if t = str "v1.0" then some 1 else none }
      (str "v") [str "a"] 7 = str "v1.0-1-abc1234" := by
  have h := c1_version_composition
    { commits := [⟨str "abc1234def", [str "a"]⟩, ⟨str "999", [str "b"]⟩],
      tagsRaw := fun q => if q = str "v*" then some (renderLines [str "v1.0"]) else none,
      tagPos := fun t => if t = str "v1.0" then some 1 else none }
    (str "v") [str "a"] 7 [str "v1.0"] [⟨str "abc1234def", [str "a"]⟩]
    (by rfl)
    (by decide)
    (by decide)
    (by rfl)
  rw [h]
  rfl

theorem renderSafe_spec (c : CommitRec) (h : renderSafe c = true) :
    containsSeq recSep (commitBody c ++ recSep.dropLast) = false ∧
    containsSeq fieldSep (lstrip c.hash ++ fieldSep.dropLast) = false ∧
    containsSeq fieldSep (c.author ++ fieldSep.dropLast) = false ∧
    containsSeq fieldSep (c.time ++ fieldSep.dropLast) = false ∧
    containsSeq fieldSep (c.subject ++ fieldSep.dropLast) = false ∧
    containsSeq fieldSep (c.authorEmail ++ fieldSep.dropLast) = false := by
  unfold renderSafe at h
  simp only [Bool.and_eq_true, Bool.not_eq_true'] at h
  exact ⟨h.1.1.1.1.1, h.1.1.1.1.2, h.1.1.1.2, h.1.1.2, h.1.2, h.2⟩

theorem splitSep_peel (sep b a : Str) (hsep : sep ≠ [])
    (h : containsSeq sep (a ++ sep.dropLast) = false) :
    splitSep sep (a ++ (sep ++ b)) = a :: splitSep sep b := by
  have hs := splitSep_append sep b hsep a h
  rw [show a ++ sep ++ b = a ++ (sep ++ b) by simp [List.append_assoc]] at hs
  exact hs

theorem splitSepN_peel (sep b a : Str) (n : Nat) (hsep : sep ≠ [])
    (h : containsSeq sep (a ++ sep.dropLast) = false) :
    splitSepN sep (n + 1) (a ++ (sep ++ b)) = a :: splitSepN sep n b := by
  have hs := splitSepN_append sep b n hsep a h
  rw [show a ++ sep ++ b = a ++ (sep ++ b) by simp [List.append_assoc]] at hs
  exact hs

theorem lstrip_fieldSep (s : Str) : lstrip (fieldSep ++ s) = fieldSep ++ s := by
  rw [lstrip_append, lstrip_eq_self fieldSep (by decide), if_neg (by decide)]

theorem lstrip_append_fieldSep (a R : Str) :
    lstrip (a ++ (fieldSep ++ R)) = lstrip a ++ (fieldSep ++ R) := by
  rw [lstrip_append]
  by_cases ha : lstrip a = []
  · rw [if_pos ha, ha, lstrip_fieldSep]
    simp
  · rw [if_neg ha]

theorem rstrip_append_fieldSep (front body : Str) :
    rstrip ((front ++ fieldSep) ++ body) = (front ++ fieldSep) ++ rstrip body := by
  rw [rstrip_append]
  by_cases hb : rstrip body = []
  · rw [if_pos hb, hb, List.append_nil,
      rstrip_append front fieldSep, rstrip_eq_self fieldSep (by decide), if_neg (by decide)]
  · rw [if_neg hb]

theorem pyStrip_commitBody (c : CommitRec) :
    pyStrip (commitBody c) =
      lstrip c.hash ++ (fieldSep ++ (c.author ++ (fieldSep ++ (c.time ++ (fieldSep ++
        (c.subject ++ (fieldSep ++ (c.authorEmail ++ (fieldSep ++ rstrip c.body))))))))) := by
  unfold pyStrip commitBody
  have hb : c.hash ++ fieldSep ++ c.author ++ fieldSep ++ c.time ++ fieldSep ++
      c.subject ++ fieldSep ++ c.authorEmail ++ fieldSep ++ c.body
      = ((c.hash ++ fieldSep ++ c.author ++ fieldSep ++ c.time ++ fieldSep ++
         c.subject ++ fieldSep ++ c.authorEmail) ++ fieldSep) ++ c.body := by
    simp [List.append_assoc]
  rw [hb, rstrip_append_fieldSep]
  have h2 : ((c.hash ++ fieldSep ++ c.author ++ fieldSep ++ c.time ++ fieldSep ++
      c.subject ++ fieldSep ++ c.authorEmail) ++ fieldSep) ++ rstrip c.body
      = c.hash ++ (fieldSep ++ (c.author ++ (fieldSep ++ (c.time ++ (fieldSep ++
        (c.subject ++ (fieldSep ++ (c.authorEmail ++ (fieldSep ++ rstrip c.body))))))))) := by
    simp [List.append_assoc]
  rw [h2, lstrip_append_fieldSep]

theorem parseCommitRec_segment (c : CommitRec) (h : renderSafe c = true) :
    parseCommitRec (pyStrip (commitBody c)) = .ok (stripCommit c) := by
  obtain ⟨h0, h1, h2, h3, h4, h5⟩ := renderSafe_spec c h
  unfold parseCommitRec
  rw [pyStrip_commitBody c]
  rw [splitSepN_peel fieldSep _ (lstrip c.hash) 4 (by decide) h1]
  rw [splitSepN_peel fieldSep _ c.author 3 (by decide) h2]
  rw [splitSepN_peel fieldSep _ c.time 2 (by decide) h3]
  rw [splitSepN_peel fieldSep _ c.subject 1 (by decide) h4]
  rw [splitSepN_peel fieldSep _ c.authorEmail 0 (by decide) h5]
  rw [splitSepN_zero]
  show Except.ok ⟨pyStrip (lstrip c.hash), pyStrip c.author, pyStrip c.time,
    pyStrip c.subject, pyStrip c.authorEmail, pyStrip (rstrip c.body)⟩ =
    .ok (stripCommit c)
  rw [pyStrip_lstrip, pyStrip_rstrip]
  rfl

theorem pyStrip_merge_body (a b : Str) :
    pyStrip (a ++ (fieldSep ++ rstrip b)) = pyStrip (a ++ fieldSep ++ b) := by
  unfold pyStrip
  have e1 : a ++ (fieldSep ++ rstrip b) = (a ++ fieldSep) ++ rstrip b := by
    simp [List.append_assoc]
  have e2 : a ++ fieldSep ++ b = (a ++ fieldSep) ++ b := rfl
  rw [e1, e2, rstrip_append_fieldSep, rstrip_append_fieldSep, rstrip_idem]

theorem parseGcCommitRec_segment (c : CommitRec) (h : renderSafe c = true) :
    parseGcCommitRec (pyStrip (commitBody c)) = .ok (gcView c) := by
  obtain ⟨h0, h1, h2, h3, h4, h5⟩ := renderSafe_spec c h
  unfold parseGcCommitRec
  rw [pyStrip_commitBody c]
  rw [splitSepN_peel fieldSep _ (lstrip c.hash) 3 (by decide) h1]
  rw [splitSepN_peel fieldSep _ c.author 2 (by decide) h2]
  rw [splitSepN_peel fieldSep _ c.time 1 (by decide) h3]
  rw [splitSepN_peel fieldSep _ c.subject 0 (by decide) h4]
  rw [splitSepN_zero]
  show Except.ok ⟨pyStrip (lstrip c.hash), pyStrip c.author, pyStrip c.time,
    pyStrip c.subject, pyStrip (c.authorEmail ++ (fieldSep ++ rstrip c.body))⟩ =
    .ok (gcView c)
  rw [pyStrip_lstrip, pyStrip_merge_body]
  rfl

theorem splitSep_bodies : ∀ (c : CommitRec) (rest : List CommitRec),
    (∀ x ∈ c :: rest, renderSafe x = true) →
    splitSep recSep (commitBody c ++ renderLog rest) = commitBody c :: rest.map commitBody
  | c, [], h => by
    have h0 := (renderSafe_spec c (h c (by simp))).1
    show splitSep recSep (commitBody c ++ renderLog []) = [commitBody c]
    rw [show renderLog [] = [] from rfl, List.append_nil]
    exact splitSep_eq_single recSep (commitBody c) (containsSeq_of_append_left h0)
  | c, c' :: rs, h => by
    have h0 := (renderSafe_spec c (h c (by simp))).1
    have e : commitBody c ++ renderLog (c' :: rs)
        = commitBody c ++ (recSep ++ (commitBody c' ++ renderLog rs)) := by
      simp [renderLog, List.append_assoc]
    rw [e, splitSep_peel recSep _ (commitBody c) (by decide) h0]
    rw [splitSep_bodies c' rs (fun x hx => h x (by simp [hx]))]
    rfl

theorem splitSep_renderLog (cs : List CommitRec) (h : ∀ x ∈ cs, renderSafe x = true) :
    splitSep recSep (renderLog cs) = [] :: cs.map commitBody := by
  cases cs with
  | nil =>
    rw [show renderLog [] = [] from rfl, splitSep]
    rfl
  | cons c rest =>
    have e : renderLog (c :: rest) = recSep ++ (commitBody c ++ renderLog rest) := by
      simp [renderLog, List.append_assoc]
    have hp := splitSep_peel recSep (commitBody c ++ renderLog rest) [] (by decide) (by decide)
    rw [List.nil_append] at hp
    rw [e, hp, splitSep_bodies c rest h]
    rfl

theorem pyStrip_commitBody_ne_nil (c : CommitRec) : pyStrip (commitBody c) ≠ [] := by
  rw [pyStrip_commitBody]
  intro hcon
  rcases List.append_eq_nil.mp hcon with ⟨_, h2⟩
  rcases List.append_eq_nil.mp h2 with ⟨hf, _⟩
  exact absurd hf (by decide)

theorem mapM_map_ok {α β γ : Type} (f : β → Except Str γ) (k : α → β) (g : α → γ) :
    ∀ (l : List α), (∀ x ∈ l, f (k x) = .ok (g x)) → (l.map k).mapM f = .ok (l.map g)
  | [], _ => rfl
  | a :: as, h => by
    rw [List.map_cons, List.mapM_cons, h a (by simp),
      mapM_map_ok f k g as (fun x hx => h x (by simp [hx]))]
    rfl

theorem parseCommits_renderLog (cs : List CommitRec) (h : ∀ x ∈ cs, renderSafe x = true) :
    parseCommits (renderLog cs) = .ok (cs.map stripCommit) := by
  unfold parseCommits
  rw [splitSep_renderLog cs h, List.map_cons, List.map_map]
  rw [List.filter_cons, if_neg (by simp [show pyStrip [] = [] from rfl])]
  rw [List.filter_eq_self.mpr (fun a ha => by
    obtain ⟨cc, _, rfl⟩ := List.mem_map.mp ha
    simpa using pyStrip_commitBody_ne_nil cc)]
  exact mapM_map_ok parseCommitRec (fun cc => pyStrip (commitBody cc)) stripCommit cs
    (fun cc hcc => parseCommitRec_segment cc (h cc hcc))

theorem parseCommitsGc_renderLog (cs : List CommitRec) (h : ∀ x ∈ cs, renderSafe x = true) :
    parseCommitsGc (renderLog cs) = .ok (cs.map gcView) := by
  unfold parseCommitsGc
  rw [splitSep_renderLog cs h, List.map_cons, List.map_map]
  rw [List.filter_cons, if_neg (by simp [show pyStrip [] = [] from rfl])]
  rw [List.filter_eq_self.mpr (fun a ha => by
    obtain ⟨cc, _, rfl⟩ := List.mem_map.mp ha
    simpa using pyStrip_commitBody_ne_nil cc)]
  exact mapM_map_ok parseGcCommitRec (fun cc => pyStrip (commitBody cc)) gcView cs
    (fun cc hcc => parseGcCommitRec_segment cc (h cc hcc))

/-- Counterexample to C9 as stated: on a well-formed six-field log text,
`GitComponent._parse_commits` — one of the two commit parsers the claim
covers — returns a five-field record with no author_email field, whose
final field still contains the field delimiter: the author email and the
body are not separate stripped fields. -/
theorem c9_counterexample :
    parseCommitsGc (renderLog [⟨str "h1", str "au", str "t1", str "subj",
        str "e@x", str "bodytext"⟩]) =
      .ok [⟨str "h1", str "au", str "t1", str "subj", str "e@x|$.|bodytext"⟩] ∧
    containsSeq fieldSep (str "e@x|$.|bodytext") = true := by
  constructor
  · rw [parseCommitsGc_renderLog [⟨str "h1", str "au", str "t1", str "subj",
      str "e@x", str "bodytext"⟩] (by decide)]
    rfl
  · decide

/-- Claim C9 (amended): for every raw git log text produced with record
delimiter `_#._` and field delimiter `|$.|` whose rendered fields do not
contain the delimiters, src/utils.py `parse_commits` splits the text into
one record per non-empty delimited segment and each parsed record contains
exactly the fields hash, author, time, subject, author_email and body, in
that order, each stripped of surrounding whitespace; the companion parser
`GitComponent._parse_commits` instead splits each segment with maxsplit 4
into five fields (hash, author, time, subject, body), leaving the author
email merged with the body. -/
theorem c9_commit_parsing (cs : List CommitRec) (h : ∀ x ∈ cs, renderSafe x = true) :
    parseCommits (renderLog cs) = .ok (cs.map stripCommit) ∧
    parseCommitsGc (renderLog cs) = .ok (cs.map gcView) :=
  ⟨parseCommits_renderLog cs h, parseCommitsGc_renderLog cs h⟩

/-- Witness for C9 on a concrete two-commit log text with surrounding
whitespace in some fields. -/
theorem c9_commit_parsing_witness :
    (∀ x ∈ [(⟨str " h1 ", str "Alice", str "2024-01-02", str "Fix bug",
        str "a@ex", str " body text "⟩ : CommitRec),
      ⟨str "h2", str "Bob", str "2024-01-03", str "Add feature",
        str "b@ex", str ""⟩], renderSafe x = true) ∧
    parseCommits (renderLog [⟨str " h1 ", str "Alice", str "2024-01-02", str "Fix bug",
        str "a@ex", str " body text "⟩,
      ⟨str "h2", str "Bob", str "2024-01-03", str "Add feature", str "b@ex", str ""⟩]) =
      .ok [⟨str "h1", str "Alice", str "2024-01-02", str "Fix bug",
        str "a@ex", str "body text"⟩,
      ⟨str "h2", str "Bob", str "2024-01-03", str "Add feature", str "b@ex", str ""⟩] := by
  refine ⟨by decide, ?_⟩
  have h := c9_commit_parsing [⟨str " h1 ", str "Alice", str "2024-01-02", str "Fix bug",
      str "a@ex", str " body text "⟩,
    ⟨str "h2", str "Bob", str "2024-01-03", str "Add feature", str "b@ex", str ""⟩]
    (by decide)
  rw [h.1]
  rfl

/-- Claim C10: for every input value (string or not),
`compute_string_json_check_sum` raises a TypeError, because it passes a str
rather than bytes to the hash object's update; consequently, in the simple
changelog generator, the aggregate final-hash computation fails whenever
the component's locations span more than one distinct git remote URL. -/
theorem c10_checksum_type_error :
    (∀ (dumps : PyObj → Str) (input : PyObj),
      computeStringJsonCheckSum dumps input = .error (str "TypeError")) ∧
    (∀ (env : SEnv) (repos : List (Str × Str)),
      getRepoHash env env.locations [] = .ok repos → 2 ≤ repos.length →
      finalHashPipeline env = .error (str "TypeError")) := by
  constructor
  · intro dumps input
    cases input <;> rfl
  · intro env repos hrep hlen
    unfold finalHashPipeline
    rw [hrep]
    obtain ⟨pq, qr, rest, rfl⟩ : ∃ p q rest, repos = p :: q :: rest := by
      match repos, hlen with
      | p :: q :: rest, _ => exact ⟨p, q, rest, rfl⟩
    rfl

/-- Witness for C10: a component spanning two remotes, where repo discovery
succeeds with two entries and the final-hash computation raises TypeError. -/
theorem c10_checksum_type_error_witness :
    computeStringJsonCheckSum (fun _ => str "{}") (.pystr (str "abc")) =
      .error (str "TypeError") ∧
    getRepoHash ⟨[str "a", str "b"],
        (fun l => if l = str "a" then str "u1" else str "u2"),
        (fun l => if l = str "a" then str "h1" else str "h2"),
        (fun _ _ => []), [], (fun _ => str "{}")⟩
      [str "a", str "b"] [] = .ok [(str "u1", str "h1"), (str "u2", str "h2")] ∧
    finalHashPipeline ⟨[str "a", str "b"],
        (fun l => if l = str "a" then str "u1" else str "u2"),
        (fun l => if l = str "a" then str "h1" else str "h2"),
        (fun _ _ => []), [], (fun _ => str "{}")⟩ = .error (str "TypeError") := by
  refine ⟨c10_checksum_type_error.1 _ _, by rfl, ?_⟩
  exact c10_checksum_type_error.2
    ⟨[str "a", str "b"],
      (fun l => if l = str "a" then str "u1" else str "u2"),
      (fun l => if l = str "a" then str "h1" else str "h2"),
      (fun _ _ => []), [], (fun _ => str "{}")⟩
    [(str "u1", str "h1"), (str "u2", str "h2")] (by rfl) (by decide)

theorem alookup_cons {β : Type} (k' : Str) (v : β) (rest : List (Str × β)) (k : Str) :
    alookup ((k', v) :: rest) k = if k' = k then some v else alookup rest k := by
  by_cases h : k' = k
  · simp [alookup, List.find?_cons, h]
  · simp [alookup, List.find?_cons, h]

theorem alookup_filter_ne {β : Type} (k k' : Str) (hk : ¬ k' = k) :
    ∀ (l : List (Str × β)),
      alookup (l.filter (fun e => decide (e.1 ≠ k'))) k = alookup l k
  | [] => rfl
  | e :: rest => by
    by_cases he : e.1 = k'
    · rw [List.filter_cons, if_neg (by simp [he]), alookup_filter_ne k k' hk rest]
      obtain ⟨e1, e2⟩ := e
      rw [alookup_cons, if_neg (by simp at he; rw [he]; exact hk)]
    · rw [List.filter_cons, if_pos (by simp [he])]
      obtain ⟨e1, e2⟩ := e
      rw [alookup_cons, alookup_cons, alookup_filter_ne k k' hk rest]

theorem crashViews_writeCfg (p payload : Str) (init : List (Str × Str)) :
    ∀ v ∈ crashViews p init (writeCfgFileTrace p payload),
      v = alookup init p ∨ v = some payload := by
  have h4 : (str ".tmp").length = 4 := rfl
  have htmp : ¬ (p ++ str ".tmp" = p) := by
    intro hcon
    have hl := congrArg List.length hcon
    rw [List.length_append, h4] at hl
    omega
  have hlk1 : alookup ((p ++ str ".tmp", payload) ::
      init.filter (fun e => decide (e.1 ≠ p ++ str ".tmp"))) p = alookup init p := by
    rw [alookup_cons, if_neg htmp, alookup_filter_ne p (p ++ str ".tmp") htmp]
  have hlkt : alookup ((p ++ str ".tmp", payload) ::
      init.filter (fun e => decide (e.1 ≠ p ++ str ".tmp"))) (p ++ str ".tmp") =
      some payload := by
    rw [alookup_cons, if_pos rfl]
  intro v hv
  simp only [writeCfgFileTrace, crashViews, applyFsEvent, if_neg htmp, hlkt, hlk1,
    alookup_cons, if_pos rfl, List.mem_cons, List.mem_append, List.not_mem_nil,
    or_false, List.mem_singleton] at hv
  tauto

/-- Counterexample to C3 as stated: `_save_installation_info` writes the
version record with a single direct write to the destination file (no temp
file, no rename, no fsync), so a crash mid-write can expose a half-written
state-store file: with old content `OLD` and new payload `NEW!`, the
truncated content `NE` is an observable crash state that is neither the old
nor the new record. -/
theorem c3_counterexample :
    some (str "NE") ∈ crashViews (str "f.yml") [(str "f.yml", str "OLD")]
      (saveInstallationInfoTrace (str "f.yml") (str "NEW!")) ∧
    str "NE" ≠ str "OLD" ∧ str "NE" ≠ str "NEW!" := by
  refine ⟨?_, by decide, by decide⟩
  decide

/-- Claim C3 (amended): the atomic temp-write + flush + fsync + rename +
directory-fsync sequence is implemented by `write_cfg_file` (used for
package metadata), and under it the destination file is only ever observed
as its old content or its complete new content; but
`_save_installation_info` does not save the per-component version record
through it — that record is written with a single direct write of the
destination file. -/
theorem c3_save_atomicity (p payload : Str) (init : List (Str × Str)) :
    saveInstallationInfoTrace p payload = [FsEvent.write p payload] ∧
    (∀ v ∈ crashViews p init (writeCfgFileTrace p payload),
      v = alookup init p ∨ v = some payload) :=
  ⟨rfl, crashViews_writeCfg p payload init⟩

/-- Witness for C3 (amended) at a concrete old file and payload. -/
theorem c3_save_atomicity_witness :
    some (str "OLD") ∈ crashViews (str "f.yml") [(str "f.yml", str "OLD")]
      (writeCfgFileTrace (str "f.yml") (str "NEW")) ∧
    (some (str "OLD") = alookup [(str "f.yml", str "OLD")] (str "f.yml") ∨
     some (str "OLD") = some (str "NEW")) := by
  have hm : some (str "OLD") ∈ crashViews (str "f.yml") [(str "f.yml", str "OLD")]
      (writeCfgFileTrace (str "f.yml") (str "NEW")) := by decide
  exact ⟨hm, (c3_save_atomicity (str "f.yml") (str "NEW")
    [(str "f.yml", str "OLD")]).2 _ hm⟩

theorem runScripts_first_failure : ∀ (pre : List Int) (c : Int) (post : List Int),
    (∀ x ∈ pre, x = 0) → c ≠ 0 → runScripts (pre ++ c :: post) = (c, pre.length + 1)
  | [], c, post, _, hc => by simp [runScripts, hc]
  | x :: pre, c, post, hpre, hc => by
    have hx : x = 0 := hpre x (by simp)
    rw [List.cons_append, runScripts]
    rw [if_neg (by simp [hx])]
    rw [runScripts_first_failure pre c post (fun y hy => hpre y (by simp [hy])) hc]
    simp

theorem runScripts_all_ok : ∀ (l : List Int), (∀ x ∈ l, x = 0) → runScripts l = (0, l.length)
  | [], _ => rfl
  | x :: rest, h => by
    rw [runScripts, if_neg (by simp [h x (by simp)])]
    rw [runScripts_all_ok rest (fun y hy => h y (by simp [hy]))]
    simp

/-- Claim C7: for every ordered list of hook scripts, execution stops at the
first script with a non-zero exit code: no subsequent script in the list
runs, the new version record is not persisted (the state-store is
unchanged, so a failed install or update can be retried), and that script's
exit code is returned as the overall result. -/
theorem c7_first_failure (pre post : List Int) (c : Int)
    (hpre : ∀ x ∈ pre, x = 0) (hc : c ≠ 0) :
    runScripts (pre ++ c :: post) = (c, pre.length + 1) ∧
    (∀ (a : RunArgs) (ctx : RunCtx) (r : VersionRec),
      a.updateCheck = true → ¬ r.currentVersion.hash = ctx.version →
      ctx.updateScripts = pre ++ c :: post →
      runInstallUpdate a ctx (some r) = .ok
        { exitCode := c, store := some r, installScriptsRun := 0,
          updateScriptsRun := pre.length + 1, justInstalled := false,
          justUpdated := false }) ∧
    (∀ (a : RunArgs) (ctx : RunCtx),
      a.installCheck = true → ctx.installScripts = pre ++ c :: post →
      runInstallUpdate a ctx none = .ok
        { exitCode := c, store := none, installScriptsRun := pre.length + 1,
          updateScriptsRun := 0, justInstalled := false,
          justUpdated := false }) := by
  have hrs := runScripts_first_failure pre c post hpre hc
  refine ⟨hrs, ?_, ?_⟩
  · intro a ctx r huc hne hscripts
    simp [runInstallUpdate, huc, hscripts, hrs, hne, hc]
  · intro a ctx hic hscripts
    simp [runInstallUpdate, hic, hscripts, hrs, hc]

/-- Witness for C7: scripts [0, 7, 0] stop after the second one with exit
code 7, and an update run over them leaves the stored record unchanged. -/
theorem c7_first_failure_witness :
    runScripts ([0] ++ (7 : Int) :: [0]) = (7, 2) ∧
    runInstallUpdate ⟨false, true⟩
      ⟨str "2.0.0", [], [0] ++ (7 : Int) :: [0], str "t", 0, 0, 0, str "cfg"⟩
      (some ⟨⟨str "1.0.0", str "t0", 0, str "cfg", 0, none⟩, none, none⟩) = .ok
      { exitCode := 7,
        store := some ⟨⟨str "1.0.0", str "t0", 0, str "cfg", 0, none⟩, none, none⟩,
        installScriptsRun := 0, updateScriptsRun := 2, justInstalled := false,
        justUpdated := false } := by
  have h := c7_first_failure [0] [0] 7 (by simp) (by decide)
  exact ⟨h.1, h.2.1 ⟨false, true⟩
    ⟨str "2.0.0", [], [0] ++ (7 : Int) :: [0], str "t", 0, 0, 0, str "cfg"⟩
    ⟨⟨str "1.0.0", str "t0", 0, str "cfg", 0, none⟩, none, none⟩
    rfl (by decide) rfl⟩

theorem mergeVerInfo_collapse (r : VersionRec)
    (hrep : (r.previousVersion.bind VerInfo.repos) = none ∨ r.currentVersion.repos ≠ none) :
    mergeVerInfo r.previousVersion r.currentVersion = r.currentVersion := by
  unfold mergeVerInfo
  have hrepos : (match r.currentVersion.repos with
      | some rr => some rr
      | none => match r.previousVersion with | some b => b.repos | none => none)
      = r.currentVersion.repos := by
    rcases hcur : r.currentVersion.repos with _ | rr
    · rcases hrep with hp | hne
      · rcases hprev : r.previousVersion with _ | pv
        · rfl
        · rw [hprev] at hp
          simp only [Option.some_bind] at hp
          simp [hp]
      · exact absurd hcur hne
    · rfl
  rw [hrepos]

theorem mergeVerInfo_some_newcur (b : VerInfo) (h t : Str) (e d : Int) (loc : Str) :
    mergeVerInfo (some b) ⟨h, t, e, loc, d, none⟩ = ⟨h, t, e, loc, d, b.repos⟩ := rfl

/-- Claim C4: (a) when no version record is stored and the install check is
requested, the component is treated as uninstalled and the install scripts
run (persisting the record, with first_version set, on success); (b) when
the stored record's current hash equals the newly computed version, the
update check takes no action; (c) otherwise the update scripts run and, on
their success, the persisted record's previous_version becomes the old
current_version while current_version becomes a record whose hash is the
computed version. -/
theorem c4_state_transitions :
    (∀ (a : RunArgs) (ctx : RunCtx), a.installCheck = true →
      ctx.installScripts ≠ [] → (∀ x ∈ ctx.installScripts, x = 0) →
      runInstallUpdate a ctx none = .ok
        { exitCode := 0,
          store := some
            { currentVersion := ⟨ctx.version, ctx.instTime, ctx.instEpoch,
                ctx.cfgLocation, ctx.instDuration, none⟩,
              previousVersion := none,
              firstVersion := some ⟨ctx.version, ctx.instTime, ctx.instEpoch,
                ctx.cfgLocation, ctx.instDuration, none⟩ },
          installScriptsRun := ctx.installScripts.length, updateScriptsRun := 0,
          justInstalled := true, justUpdated := false }) ∧
    (∀ (a : RunArgs) (ctx : RunCtx) (r : VersionRec), a.updateCheck = true →
      r.currentVersion.hash = ctx.version →
      runInstallUpdate a ctx (some r) = .ok
        { exitCode := 0, store := some r, installScriptsRun := 0,
          updateScriptsRun := 0, justInstalled := false, justUpdated := false }) ∧
    (∀ (a : RunArgs) (ctx : RunCtx) (r : VersionRec), a.updateCheck = true →
      ¬ r.currentVersion.hash = ctx.version →
      ctx.updateScripts ≠ [] → (∀ x ∈ ctx.updateScripts, x = 0) →
      (r.previousVersion.bind VerInfo.repos) = none ∨ r.currentVersion.repos ≠ none →
      runInstallUpdate a ctx (some r) = .ok
        { exitCode := 0,
          store := some
            { currentVersion := ⟨ctx.version, ctx.instTime, ctx.instEpoch,
                ctx.cfgLocation, ctx.updDuration, r.currentVersion.repos⟩,
              previousVersion := some r.currentVersion,
              firstVersion := r.firstVersion },
          installScriptsRun := 0, updateScriptsRun := ctx.updateScripts.length,
          justInstalled := false, justUpdated := true }) := by
  refine ⟨?_, ?_, ?_⟩
  · intro a ctx hic hne hok
    have hrs := runScripts_all_ok ctx.installScripts hok
    simp [runInstallUpdate, hic, hne, hrs, saveInstallationInfo]
  · intro a ctx r huc heq
    simp [runInstallUpdate, huc, heq]
  · intro a ctx r huc hne hscripts hok hrep
    have hrs := runScripts_all_ok ctx.updateScripts hok
    have hmerge := mergeVerInfo_collapse r hrep
    simp [runInstallUpdate, huc, hne, hscripts, hrs, saveInstallationInfo, hmerge,
      mergeVerInfo_some_newcur]

/-- Witness for C4 at concrete records: fresh install, up-to-date check and
a successful update. -/
theorem c4_state_transitions_witness :
    runInstallUpdate ⟨true, false⟩
      ⟨str "1.0.0", [0], [], str "t1", 5, 2, 3, str "cfg"⟩ none = .ok
      { exitCode := 0,
        store := some
          { currentVersion := ⟨str "1.0.0", str "t1", 5, str "cfg", 2, none⟩,
            previousVersion := none,
            firstVersion := some ⟨str "1.0.0", str "t1", 5, str "cfg", 2, none⟩ },
        installScriptsRun := 1, updateScriptsRun := 0,
        justInstalled := true, justUpdated := false } ∧
    runInstallUpdate ⟨false, true⟩
      ⟨str "1.0.0", [], [0], str "t2", 6, 2, 3, str "cfg"⟩
      (some ⟨⟨str "1.0.0", str "t1", 5, str "cfg", 2, none⟩, none,
        some ⟨str "1.0.0", str "t1", 5, str "cfg", 2, none⟩⟩) = .ok
      { exitCode := 0,
        store := some ⟨⟨str "1.0.0", str "t1", 5, str "cfg", 2, none⟩, none,
          some ⟨str "1.0.0", str "t1", 5, str "cfg", 2, none⟩⟩,
        installScriptsRun := 0, updateScriptsRun := 0,
        justInstalled := false, justUpdated := false } ∧
    runInstallUpdate ⟨false, true⟩
      ⟨str "2.0.0", [], [0, 0], str "t3", 7, 2, 3, str "cfg"⟩
      (some ⟨⟨str "1.0.0", str "t1", 5, str "cfg", 2, none⟩, none,
        some ⟨str "1.0.0", str "t1", 5, str "cfg", 2, none⟩⟩) = .ok
      { exitCode := 0,
        store := some
          { currentVersion := ⟨str "2.0.0", str "t3", 7, str "cfg", 3, none⟩,
            previousVersion := some ⟨str "1.0.0", str "t1", 5, str "cfg", 2, none⟩,
            firstVersion := some ⟨str "1.0.0", str "t1", 5, str "cfg", 2, none⟩ },
        installScriptsRun := 0, updateScriptsRun := 2,
        justInstalled := false, justUpdated := true } := by
  refine ⟨c4_state_transitions.1 ⟨true, false⟩
      ⟨str "1.0.0", [0], [], str "t1", 5, 2, 3, str "cfg"⟩ rfl (by decide) (by decide),
    c4_state_transitions.2.1 ⟨false, true⟩
      ⟨str "1.0.0", [], [0], str "t2", 6, 2, 3, str "cfg"⟩
      ⟨⟨str "1.0.0", str "t1", 5, str "cfg", 2, none⟩, none,
        some ⟨str "1.0.0", str "t1", 5, str "cfg", 2, none⟩⟩ rfl (by decide), ?_⟩
  exact c4_state_transitions.2.2 ⟨false, true⟩
    ⟨str "2.0.0", [], [0, 0], str "t3", 7, 2, 3, str "cfg"⟩
    ⟨⟨str "1.0.0", str "t1", 5, str "cfg", 2, none⟩, none,
      some ⟨str "1.0.0", str "t1", 5, str "cfg", 2, none⟩⟩
    rfl (by decide) (by decide) (by decide) (Or.inl rfl)

theorem splitSep_nil (sep : Str) : splitSep sep [] = [[]] := by rw [splitSep]

theorem parseCommits_nil : parseCommits [] = .ok [] := by
  unfold parseCommits
  rw [splitSep_nil]
  rfl

theorem parseCommitsGc_nil : parseCommitsGc [] = .ok [] := by
  unfold parseCommitsGc
  rw [splitSep_nil]
  rfl

/-- Claim C5: changelog generation is idempotent: when the newly computed
aggregate hash equals the hash stored in the first history entry,
extraction is skipped and the changelog file is returned unchanged; hence a
second invocation with no intervening repository change (same environment)
adds no entry. -/
theorem c5_changelog_idempotent (env : SEnv) (f : ClFile) (g g' : Str) :
    (∀ fh, finalHashPipeline env = .ok fh →
      f.history.head?.map (·.finalHash) = some fh →
      cmdGenChangelog env f g = .ok f) ∧
    (∀ f', cmdGenChangelog env f g = .ok f' → cmdGenChangelog env f' g' = .ok f') := by
  constructor
  · intro fh hpipe hhead
    unfold finalHashPipeline at hpipe
    cases hrep : getRepoHash env env.locations [] with
    | error e => rw [hrep] at hpipe; exact absurd hpipe (by simp)
    | ok repos =>
      rw [hrep] at hpipe
      have hfh : finalHashOf env.dumps repos = .ok fh := hpipe
      unfold cmdGenChangelog
      simp only [hrep, hfh]
      rw [if_pos hhead]
  · intro f' hok
    cases hrep : getRepoHash env env.locations [] with
    | error e =>
      unfold cmdGenChangelog at hok
      rw [hrep] at hok
      exact absurd hok (by simp)
    | ok repos =>
      cases hfh : finalHashOf env.dumps repos with
      | error e =>
        unfold cmdGenChangelog at hok
        simp only [hrep, hfh] at hok
        exact absurd hok (by simp)
      | ok fh =>
        unfold cmdGenChangelog at hok
        simp only [hrep, hfh] at hok
        by_cases hguard : f.history.head?.map (·.finalHash) = some fh
        · rw [if_pos hguard] at hok
          have hf : f = f' := by
            injection hok
          subst hf
          unfold cmdGenChangelog
          simp only [hrep, hfh]
          rw [if_pos hguard]
        · rw [if_neg hguard] at hok
          cases hext : sExtract env (match f.history.head? with
              | some e => e.repos
              | none => []) env.locations ([], [], []) with
          | error e =>
            simp only [hext] at hok
            exact absurd hok (by simp)
          | ok triple =>
            obtain ⟨seen, changelog, used⟩ := triple
            simp only [hext] at hok
            have hf : f' = { f with history :=
                { finalHash := fh, generatedAt := g,
                  changelogFormat := str "v1.0.0", repos := repos,
                  changelog := changelog, usedReferences := used } :: f.history } := by
              injection hok with hinj
              exact hinj.symm
            subst hf
            unfold cmdGenChangelog
            simp only [hrep, hfh]
            rw [if_pos (by simp)]

/-- Witness for C5: a single-repository environment whose aggregate hash
matches the newest history entry: the run skips extraction and leaves the
file unchanged, and running again still changes nothing. -/
theorem c5_changelog_idempotent_witness :
    finalHashPipeline ⟨[str "a"], (fun _ => str "u"), (fun _ => str "h9"),
      (fun _ _ => []), [], (fun _ => str "{}")⟩ = .ok (.inl (str "h9")) ∧
    cmdGenChangelog ⟨[str "a"], (fun _ => str "u"), (fun _ => str "h9"),
        (fun _ _ => []), [], (fun _ => str "{}")⟩
      ⟨[⟨.inl (str "h9"), str "g0", str "v1.0.0", [(str "u", str "h9")], [], []⟩],
        str "comp"⟩ (str "g1") =
      .ok ⟨[⟨.inl (str "h9"), str "g0", str "v1.0.0", [(str "u", str "h9")], [], []⟩],
        str "comp"⟩ ∧
    cmdGenChangelog ⟨[str "a"], (fun _ => str "u"), (fun _ => str "h9"),
        (fun _ _ => []), [], (fun _ => str "{}")⟩
      ⟨[⟨.inl (str "h9"), str "g0", str "v1.0.0", [(str "u", str "h9")], [], []⟩],
        str "comp"⟩ (str "g2") =
      .ok ⟨[⟨.inl (str "h9"), str "g0", str "v1.0.0", [(str "u", str "h9")], [], []⟩],
        str "comp"⟩ := by
  have hpipe : finalHashPipeline ⟨[str "a"], (fun _ => str "u"), (fun _ => str "h9"),
      (fun _ _ => []), [], (fun _ => str "{}")⟩ = .ok (.inl (str "h9")) := by rfl
  have h1 := (c5_changelog_idempotent ⟨[str "a"], (fun _ => str "u"), (fun _ => str "h9"),
      (fun _ _ => []), [], (fun _ => str "{}")⟩
    ⟨[⟨.inl (str "h9"), str "g0", str "v1.0.0", [(str "u", str "h9")], [], []⟩],
      str "comp"⟩ (str "g1") (str "g2")).1 (.inl (str "h9")) hpipe (by rfl)
  refine ⟨hpipe, h1, ?_⟩
  exact (c5_changelog_idempotent ⟨[str "a"], (fun _ => str "u"), (fun _ => str "h9"),
      (fun _ _ => []), [], (fun _ => str "{}")⟩
    ⟨[⟨.inl (str "h9"), str "g0", str "v1.0.0", [(str "u", str "h9")], [], []⟩],
      str "comp"⟩ (str "g1") (str "g2")).2 _ h1

/-- Counterexample to C6 as stated: in the changelog branch of
`GitComponent.run`, when the loaded record's first_version hash equals the
newly computed hash (the first-install detection), the existing history is
reset: the pre-existing entry is dropped and the resulting history contains
only the new entry — the old entries are not preserved. -/
theorem c6_counterexample :
    gcChangelog ⟨[], (fun _ => str "u"), (fun _ _ => [])⟩
      ⟨[⟨str "oldhash", 0, str "t0", [], [], str "loc"⟩]⟩
      ⟨⟨str "V", str "t1", 1, str "cfg", 0, some []⟩, none,
        some ⟨str "V", str "t1", 1, str "cfg", 0, some []⟩⟩
      (str "V") (str "loc2") =
      .ok ⟨[⟨str "V", 1, str "t1", [], [], str "loc2"⟩]⟩ ∧
    (⟨str "oldhash", 0, str "t0", [], [], str "loc"⟩ : GcEntry) ∉
      ([⟨str "V", 1, str "t1", [], [], str "loc2"⟩] : List GcEntry) := by
  exact ⟨by rfl, by decide⟩

/-- Claim C6 (amended): whenever changelog generation adds an entry, the
entry is prepended at position 0 with all previously existing entries
preserved unmodified in their original order after it — except the
first-install reset branch of `GitComponent.run`, which empties the
history before inserting.  When the run is not detected as a first install,
the git_component branch prepends onto the existing history, and
`gen_simple_changelog` always prepends onto the existing history. -/
theorem c6_history_prepend :
    (∀ (env : SEnv) (f : ClFile) (g : Str) (f' : ClFile),
      cmdGenChangelog env f g = .ok f' →
      f' = f ∨ ∃ e, f'.history = e :: f.history ∧ f'.name = f.name) ∧
    (∀ (env : ClEnv) (old : GcClFile) (info : VersionRec) (fh loc : Str) (f' : GcClFile),
      ¬ info.firstVersion.map (·.hash) = some fh →
      gcChangelog env old info fh loc = .ok f' →
      f' = old ∨ ∃ e, f'.history = e :: old.history) := by
  constructor
  · intro env f g f' hok
    cases hrep : getRepoHash env env.locations [] with
    | error e =>
      unfold cmdGenChangelog at hok
      rw [hrep] at hok
      exact absurd hok (by simp)
    | ok repos =>
      cases hfh : finalHashOf env.dumps repos with
      | error e =>
        unfold cmdGenChangelog at hok
        simp only [hrep, hfh] at hok
        exact absurd hok (by simp)
      | ok fh =>
        unfold cmdGenChangelog at hok
        simp only [hrep, hfh] at hok
        by_cases hguard : f.history.head?.map (·.finalHash) = some fh
        · rw [if_pos hguard] at hok
          left
          injection hok with hinj
          exact hinj.symm
        · rw [if_neg hguard] at hok
          cases hext : sExtract env (match f.history.head? with
              | some e => e.repos
              | none => []) env.locations ([], [], []) with
          | error e =>
            simp only [hext] at hok
            exact absurd hok (by simp)
          | ok triple =>
            obtain ⟨seen, changelog, used⟩ := triple
            simp only [hext] at hok
            right
            refine ⟨(⟨fh, g, str "v1.0.0", repos, changelog, used⟩ : ClEntry), ?_, ?_⟩
            · injection hok with hinj
              rw [← hinj]
            · injection hok with hinj
              rw [← hinj]
  · intro env old info fh loc f' hfirst hok
    unfold gcChangelog at hok
    by_cases hguard : old.history.head?.map (·.hash) = some fh
    · rw [if_pos hguard] at hok
      left
      injection hok with hinj
      exact hinj.symm
    · rw [if_neg hguard] at hok
      simp only [if_neg hfirst] at hok
      cases hprev : info.previousVersion with
      | none =>
        rw [hprev] at hok
        exact absurd hok (by simp)
      | some p =>
        rw [hprev] at hok
        simp only [] at hok
        cases hrs : p.repos with
        | none =>
          rw [hrs] at hok
          exact absurd hok (by simp)
        | some rs =>
          rw [hrs] at hok
          simp only [] at hok
          cases hext : gcExtract env rs env.locations ([], []) with
          | error e =>
            simp only [hext] at hok
            exact absurd hok (by simp)
          | ok pr =>
            obtain ⟨seen, changelog⟩ := pr
            simp only [hext] at hok
            cases hcur : info.currentVersion.repos with
            | none =>
              rw [hcur] at hok
              exact absurd hok (by simp)
            | some curRepos =>
              rw [hcur] at hok
              simp only [] at hok
              right
              refine ⟨(⟨fh, info.currentVersion.utcepoch, info.currentVersion.utctime,
                changelog, curRepos, loc⟩ : GcEntry), ?_⟩
              injection hok with hinj
              rw [← hinj]

/-- Witness for C6 (amended): a non-first-install git_component changelog
run prepends its entry in front of the preserved old entry, and a
gen_simple_changelog run on an up-to-date file returns it unchanged. -/
theorem c6_history_prepend_witness :
    gcChangelog ⟨[], (fun _ => str "u"), (fun _ _ => [])⟩
      ⟨[⟨str "oldhash", 0, str "t0", [], [], str "loc"⟩]⟩
      ⟨⟨str "V", str "t1", 1, str "cfg", 0, some []⟩,
        some ⟨str "W", str "t0", 0, str "cfg", 0, some []⟩,
        some ⟨str "F", str "tf", 0, str "cfg", 0, none⟩⟩
      (str "V") (str "loc2") =
      .ok ⟨[⟨str "V", 1, str "t1", [], [], str "loc2"⟩,
            ⟨str "oldhash", 0, str "t0", [], [], str "loc"⟩]⟩ ∧
    ((⟨[⟨str "V", 1, str "t1", [], [], str "loc2"⟩,
        ⟨str "oldhash", 0, str "t0", [], [], str "loc"⟩]⟩ : GcClFile) =
        ⟨[⟨str "oldhash", 0, str "t0", [], [], str "loc"⟩]⟩ ∨
      ∃ e, ([⟨str "V", 1, str "t1", [], [], str "loc2"⟩,
            ⟨str "oldhash", 0, str "t0", [], [], str "loc"⟩] : List GcEntry) =
        e :: [⟨str "oldhash", 0, str "t0", [], [], str "loc"⟩]) ∧
    ((⟨[⟨.inl (str "h9"), str "g0", str "v1.0.0", [(str "u", str "h9")], [], []⟩],
        str "comp"⟩ : ClFile) =
        ⟨[⟨.inl (str "h9"), str "g0", str "v1.0.0", [(str "u", str "h9")], [], []⟩],
          str "comp"⟩ ∨
      ∃ e, ([⟨.inl (str "h9"), str "g0", str "v1.0.0", [(str "u", str "h9")], [], []⟩]
          : List ClEntry) =
        e :: [⟨.inl (str "h9"), str "g0", str "v1.0.0", [(str "u", str "h9")], [], []⟩] ∧
        (str "comp" : Str) = str "comp") := by
  have h1 : gcChangelog ⟨[], (fun _ => str "u"), (fun _ _ => [])⟩
      ⟨[⟨str "oldhash", 0, str "t0", [], [], str "loc"⟩]⟩
      ⟨⟨str "V", str "t1", 1, str "cfg", 0, some []⟩,
        some ⟨str "W", str "t0", 0, str "cfg", 0, some []⟩,
        some ⟨str "F", str "tf", 0, str "cfg", 0, none⟩⟩
      (str "V") (str "loc2") =
      .ok ⟨[⟨str "V", 1, str "t1", [], [], str "loc2"⟩,
            ⟨str "oldhash", 0, str "t0", [], [], str "loc"⟩]⟩ := by rfl
  have h2 : cmdGenChangelog ⟨[str "a"], (fun _ => str "u"), (fun _ => str "h9"),
      (fun _ _ => []), [], (fun _ => str "{}")⟩
      ⟨[⟨.inl (str "h9"), str "g0", str "v1.0.0", [(str "u", str "h9")], [], []⟩],
        str "comp"⟩ (str "g1") =
      .ok ⟨[⟨.inl (str "h9"), str "g0", str "v1.0.0", [(str "u", str "h9")], [], []⟩],
        str "comp"⟩ := by rfl
  refine ⟨h1, c6_history_prepend.2 _ _ _ _ _ _ (by decide) h1, ?_⟩
  exact c6_history_prepend.1 _ _ (str "g1") _ h2

theorem collectGitPaths_ok_iff (root : Str) : ∀ (es : List Str) (acc d : List Str),
    collectGitPaths root acc es = .ok d ↔
      ((∀ e ∈ es, (str "../").isPrefixOf (normalizeEntry root e) = false) ∧
       d = es.foldl (fun a e =>
         if normalizeEntry root e ∈ a then a else a ++ [normalizeEntry root e]) acc)
  | [], acc, d => by
    simp only [collectGitPaths, List.foldl_nil, List.not_mem_nil, false_implies,
      implies_true, true_and]
    constructor
    · intro h
      injection h with hh
      exact hh.symm
    · intro h
      rw [h]
  | e :: rest, acc, d => by
    rw [List.foldl_cons]
    by_cases hpre : (str "../").isPrefixOf (normalizeEntry root e) = true
    · constructor
      · intro h
        exfalso
        unfold collectGitPaths at h
        rw [if_pos hpre] at h
        exact absurd h (by simp)
      · intro hyp
        exact absurd (hyp.1 e (by simp)) (by simp [hpre])
    · have hpre' : (str "../").isPrefixOf (normalizeEntry root e) = false :=
        Bool.eq_false_iff.mpr hpre
      constructor
      · intro h
        unfold collectGitPaths at h
        rw [if_neg (by simp [hpre'])] at h
        have hrec := (collectGitPaths_ok_iff root rest _ d).mp h
        refine ⟨fun x hx => ?_, hrec.2⟩
        rcases List.mem_cons.mp hx with hx | hx
        · rw [hx]
          exact hpre'
        · exact hrec.1 x hx
      · intro hyp
        unfold collectGitPaths
        rw [if_neg (by simp [hpre'])]
        exact (collectGitPaths_ok_iff root rest _ d).mpr
          ⟨fun x hx => hyp.1 x (by simp [hx]), hyp.2⟩

theorem dedup_foldl_mem (root : Str) : ∀ (es : List Str) (acc : List Str) (x : Str),
    (x ∈ es.foldl (fun a e =>
        if normalizeEntry root e ∈ a then a else a ++ [normalizeEntry root e]) acc) ↔
      (x ∈ acc ∨ ∃ e ∈ es, normalizeEntry root e = x)
  | [], acc, x => by simp
  | e :: rest, acc, x => by
    rw [List.foldl_cons, dedup_foldl_mem root rest _ x]
    by_cases hm : normalizeEntry root e ∈ acc
    · rw [if_pos hm]
      simp only [List.mem_cons]
      constructor
      · rintro (hx | ⟨e', he', hx⟩)
        · exact Or.inl hx
        · exact Or.inr ⟨e', Or.inr he', hx⟩
      · rintro (hx | ⟨e', he' | he', hx⟩)
        · exact Or.inl hx
        · rw [he'] at hx
          rw [← hx]
          exact Or.inl hm
        · exact Or.inr ⟨e', he', hx⟩
    · rw [if_neg hm]
      simp only [List.mem_append, List.mem_singleton, List.mem_cons, List.not_mem_nil,
        or_false, false_or]
      constructor
      · rintro ((hx | hx) | ⟨e', he', hx⟩)
        · exact Or.inl hx
        · exact Or.inr ⟨e, Or.inl rfl, hx.symm⟩
        · exact Or.inr ⟨e', Or.inr he', hx⟩
      · rintro (hx | ⟨e', he' | he', hx⟩)
        · exact Or.inl (Or.inl hx)
        · rw [he'] at hx
          exact Or.inl (Or.inr hx.symm)
        · exact Or.inr ⟨e', he', hx⟩

theorem checkGitPathsExist_ok_iff (env : FsEnv) (root : Str) : ∀ (fs : List Str),
    checkGitPathsExist env root fs = .ok () ↔
      ∀ f ∈ fs, env.isLink (pathJoin root f) = true ∨ env.pathExists (pathJoin root f) = true
  | [] => by simp [checkGitPathsExist]
  | f :: rest => by
    unfold checkGitPathsExist
    by_cases hc : env.isLink (pathJoin root f) = false ∧
        env.pathExists (pathJoin root f) = false
    · rw [if_pos (by simp [hc.1, hc.2])]
      constructor
      · intro h
        exact absurd h (by simp)
      · intro h
        rcases h f (by simp) with h1 | h1
        · rw [hc.1] at h1
          exact absurd h1 (by simp)
        · rw [hc.2] at h1
          exact absurd h1 (by simp)
    · rw [if_neg (by
        intro hcon
        exact hc ⟨by simpa using hcon.1, by simpa using hcon.2⟩)]
      rw [checkGitPathsExist_ok_iff env root rest]
      constructor
      · intro h x hx
        rcases List.mem_cons.mp hx with hx | hx
        · subst hx
          cases h1 : env.isLink (pathJoin root x) with
          | true => exact Or.inl rfl
          | false =>
            cases h2 : env.pathExists (pathJoin root x) with
            | true => exact Or.inr rfl
            | false => exact absurd ⟨h1, h2⟩ hc
        · exact h x hx
      · intro h x hx
        exact h x (by simp [hx])

theorem touchesAny_congr (d1 d2 : List Str) (hmem : ∀ x, x ∈ d1 ↔ x ∈ d2) (c : GCommit) :
    touchesAny d1 c = touchesAny d2 c := by
  unfold touchesAny
  congr 1
  funext p
  exact decide_eq_decide.mpr (hmem p)

theorem getGitVersion_mem_congr (st : GitState) (tagPrfx : Str) (limit : Nat)
    (d1 d2 : List Str) (hmem : ∀ x, x ∈ d1 ↔ x ∈ d2) :
    getGitVersion st tagPrfx d1 limit = getGitVersion st tagPrfx d2 limit := by
  have hts : touchesAny d1 = touchesAny d2 := by
    funext c
    exact touchesAny_congr d1 d2 hmem c
  unfold getGitVersion composeBuildCommitHash gitLogRaw commitsSince
  rw [hts]

theorem getPathsToGitCheck_ok_iff (env : FsEnv) (root : Str) (entries d : List Str) :
    getPathsToGitCheck env root entries = .ok d ↔
      collectGitPaths root [] entries = .ok d ∧
      checkGitPathsExist env root d = .ok () := by
  unfold getPathsToGitCheck
  cases hc : collectGitPaths root [] entries with
  | error e => simp [Bind.bind, Except.bind]
  | ok l =>
    cases hch : checkGitPathsExist env root l with
    | error e =>
      simp only [Bind.bind, Except.bind, hch]
      constructor
      · intro h
        exact absurd h (by simp)
      · intro h
        injection h.1 with hh
        subst hh
        rw [hch] at h
        exact absurd h.2 (by simp)
    | ok u =>
      obtain ⟨⟩ := u
      simp only [Bind.bind, Except.bind, hch]
      constructor
      · intro h
        injection h with hh
        subst hh
        exact ⟨rfl, hch⟩
      · intro h
        injection h.1 with hh
        subst hh
        rfl

/-- Claim C2 (amended): for every fixed repository state and every two
manifests listing the same set of location paths in different orders, the
version-composition pipeline yields byte-identical version strings — the
git query depends only on the set of deduplicated normalized paths.  (The
path list itself is passed to git in first-seen manifest order; it is not
sorted.) -/
theorem c2_order_determinism (st : GitState) (env : FsEnv) (root tagPrfx : Str)
    (limit : Nat) (l1 l2 : List Str) (hp : l1.Perm l2) (v : Str)
    (h1 : composeVersionPipeline st env root tagPrfx limit l1 = .ok v) :
    composeVersionPipeline st env root tagPrfx limit l2 = .ok v := by
  unfold composeVersionPipeline at h1 ⊢
  cases hg1 : getPathsToGitCheck env root l1 with
  | error e =>
    rw [hg1] at h1
    exact absurd h1 (by simp [Bind.bind, Except.bind])
  | ok d1 =>
    rw [hg1] at h1
    simp only [Bind.bind, Except.bind] at h1
    have hv : v = getGitVersion st tagPrfx d1 limit := by
      injection h1 with hh
      exact hh.symm
    obtain ⟨hcol1, hchk1⟩ := (getPathsToGitCheck_ok_iff env root l1 d1).mp hg1
    obtain ⟨hall1, hd1⟩ := (collectGitPaths_ok_iff root l1 [] d1).mp hcol1
    have hall2 : ∀ e ∈ l2, (str "../").isPrefixOf (normalizeEntry root e) = false :=
      fun e he => hall1 e (hp.mem_iff.mpr he)
    have hcol2 : collectGitPaths root [] l2 = .ok (l2.foldl (fun a e =>
        if normalizeEntry root e ∈ a then a else a ++ [normalizeEntry root e]) []) :=
      (collectGitPaths_ok_iff root l2 [] _).mpr ⟨hall2, rfl⟩
    have hmem : ∀ x, x ∈ d1 ↔ x ∈ l2.foldl (fun a e =>
        if normalizeEntry root e ∈ a then a else a ++ [normalizeEntry root e]) [] := by
      intro x
      rw [hd1, dedup_foldl_mem root l1 [] x, dedup_foldl_mem root l2 [] x]
      simp only [List.not_mem_nil, false_or]
      constructor
      · rintro ⟨e, he, hx⟩
        exact ⟨e, hp.mem_iff.mp he, hx⟩
      · rintro ⟨e, he, hx⟩
        exact ⟨e, hp.mem_iff.mpr he, hx⟩
    have hchk2 : checkGitPathsExist env root (l2.foldl (fun a e =>
        if normalizeEntry root e ∈ a then a else a ++ [normalizeEntry root e]) []) =
        .ok () := by
      rw [checkGitPathsExist_ok_iff]
      intro f hf
      exact (checkGitPathsExist_ok_iff env root d1).mp hchk1 f ((hmem f).mpr hf)
    have hg2 := (getPathsToGitCheck_ok_iff env root l2 _).mpr ⟨hcol2, hchk2⟩
    rw [hg2]
    simp only [Bind.bind, Except.bind]
    rw [hv, getGitVersion_mem_congr st tagPrfx limit d1 _ hmem]

theorem normalizeEntry_rb : normalizeEntry (str "/r") (str "b") = ['b'] := by
  show relPathStr (normAbsParts (pathJoin (str "/r") (str "b"))) (normAbsParts (str "/r")) = ['b']
  rw [show pathJoin (str "/r") (str "b") = ['/', 'r', '/', 'b'] from rfl,
    show str "/r" = ['/', 'r'] from rfl]
  simp [normAbsParts, pathSplit, splitSep, relPathStr, relSegs, List.intercalate,
    show str "." = ['.'] from rfl, show str ".." = ['.', '.'] from rfl]

theorem normalizeEntry_ra : normalizeEntry (str "/r") (str "a") = ['a'] := by
  show relPathStr (normAbsParts (pathJoin (str "/r") (str "a"))) (normAbsParts (str "/r")) = ['a']
  rw [show pathJoin (str "/r") (str "a") = ['/', 'r', '/', 'a'] from rfl,
    show str "/r" = ['/', 'r'] from rfl]
  simp [normAbsParts, pathSplit, splitSep, relPathStr, relSegs, List.intercalate,
    show str "." = ['.'] from rfl, show str ".." = ['.', '.'] from rfl]

theorem getPathsToGitCheck_ba :
    getPathsToGitCheck ⟨(fun _ => true), (fun _ => false)⟩ (str "/r")
      [str "b", str "a"] = .ok [str "b", str "a"] := by
  apply (getPathsToGitCheck_ok_iff _ _ _ _).mpr
  constructor
  · apply (collectGitPaths_ok_iff _ _ _ _).mpr
    constructor
    · intro e he
      rcases List.mem_cons.mp he with rfl | he
      · rw [normalizeEntry_rb]
        decide
      · rcases List.mem_cons.mp he with rfl | he
        · rw [normalizeEntry_ra]
          decide
        · exact absurd he (by simp)
    · rw [List.foldl_cons, List.foldl_cons, List.foldl_nil, normalizeEntry_rb,
        normalizeEntry_ra]
      decide
  · rfl

/-- Counterexample to C2 as stated: the deduplicated path list handed to the
git query keeps first-seen manifest order — the entries ["b", "a"] are
queried as ["b", "a"], which is not the sorted list ["a", "b"]. -/
theorem c2_counterexample :
    getPathsToGitCheck ⟨(fun _ => true), (fun _ => false)⟩ (str "/r")
      [str "b", str "a"] = .ok [str "b", str "a"] ∧
    ([str "b", str "a"] : List Str) ≠ [str "a", str "b"] :=
  ⟨getPathsToGitCheck_ba, by decide⟩

/-- Witness for C2: the permuted manifests ["b", "a"] and ["a", "b"] produce
the identical version string over the same repository state. -/
theorem c2_order_determinism_witness :
    ([str "b", str "a"] : List Str).Perm [str "a", str "b"] ∧
    composeVersionPipeline ⟨[], (fun _ => none), (fun _ => none)⟩
      ⟨(fun _ => true), (fun _ => false)⟩ (str "/r") (str "v") 7
      [str "b", str "a"] = .ok (str "0.0.1") ∧
    composeVersionPipeline ⟨[], (fun _ => none), (fun _ => none)⟩
      ⟨(fun _ => true), (fun _ => false)⟩ (str "/r") (str "v") 7
      [str "a", str "b"] = .ok (str "0.0.1") := by
  have hperm : ([str "b", str "a"] : List Str).Perm [str "a", str "b"] := by decide
  have h1 : composeVersionPipeline ⟨[], (fun _ => none), (fun _ => none)⟩
      ⟨(fun _ => true), (fun _ => false)⟩ (str "/r") (str "v") 7
      [str "b", str "a"] = .ok (str "0.0.1") := by
    unfold composeVersionPipeline
    rw [getPathsToGitCheck_ba]
    simp only [Bind.bind, Except.bind]
    rfl
  exact ⟨hperm, h1, c2_order_determinism _ _ _ _ _ _ _ hperm _ h1⟩

theorem normalizeEntry_rdotdot : normalizeEntry (str "/r") (str "..") = ['.', '.'] := by
  show relPathStr (normAbsParts (pathJoin (str "/r") (str "..")))
    (normAbsParts (str "/r")) = ['.', '.']
  rw [show pathJoin (str "/r") (str "..") = ['/', 'r', '/', '.', '.'] from rfl,
    show str "/r" = ['/', 'r'] from rfl]
  simp [normAbsParts, pathSplit, splitSep, relPathStr, relSegs, List.intercalate,
    show str "." = ['.'] from rfl, show str ".." = ['.', '.'] from rfl]

theorem normAbsParts_parent : normAbsParts (pathJoin (str "/r") (str "..")) = [] := by
  rw [show pathJoin (str "/r") (str "..") = ['/', 'r', '/', '.', '.'] from rfl]
  simp [normAbsParts, pathSplit, splitSep,
    show str "." = ['.'] from rfl, show str ".." = ['.', '.'] from rfl]

theorem normAbsParts_root_r : normAbsParts (str "/r") = [['r']] := by
  rw [show str "/r" = ['/', 'r'] from rfl]
  simp [normAbsParts, pathSplit, splitSep,
    show str "." = ['.'] from rfl, show str ".." = ['.', '.'] from rfl]

/-- Counterexample to C8 as stated: the manifest location `..` resolves to
the parent of the declared root — its normalized absolute path is not under
the root — yet the relative-path string is exactly `..`, which does not
start with `../`, so resolution succeeds instead of failing: the parent
directory of the root is versioned. -/
theorem c8_counterexample :
    getPathsToGitCheck ⟨(fun _ => true), (fun _ => false)⟩ (str "/r") [str ".."] =
      .ok [str ".."] ∧
    ¬ normAbsParts (str "/r") <+: normAbsParts (pathJoin (str "/r") (str "..")) := by
  constructor
  · apply (getPathsToGitCheck_ok_iff _ _ _ _).mpr
    refine ⟨?_, by rfl⟩
    apply (collectGitPaths_ok_iff _ _ _ _).mpr
    constructor
    · intro e he
      rcases List.mem_cons.mp he with rfl | he
      · rw [normalizeEntry_rdotdot]
        decide
      · exact absurd he (by simp)
    · rw [List.foldl_cons, List.foldl_nil, normalizeEntry_rdotdot]
      decide
  · rw [normAbsParts_parent, normAbsParts_root_r]
    decide

/-- Claim C8 (amended): the escape validation is a string-prefix test on the
resolved relative path: (a) every path accepted into the git-check list has
a relative path that does not start with `../`; (b) an entry whose resolved
relative path does start with `../` makes resolution fail before anything
is returned; (c) every copy the packaging loop records has a source whose
path relative to the root and a destination whose path relative to the
package directory both pass that test.  (A path resolving to exactly `..`
passes the test even though it lies outside — see the counterexample.) -/
theorem c8_escape_checks :
    (∀ (env : FsEnv) (root : Str) (entries d : List Str),
      getPathsToGitCheck env root entries = .ok d →
      ∀ p ∈ d, (str "../").isPrefixOf p = false) ∧
    (∀ (env : FsEnv) (root : Str) (entries : List Str) (e : Str), e ∈ entries →
      (str "../").isPrefixOf (normalizeEntry root e) = true →
      ∀ d, ¬ getPathsToGitCheck env root entries = .ok d) ∧
    (∀ (root srcDir packageDir : Str) (entries : List CopyEntry) (s d : Str),
      (s, d) ∈ (stageCopyTr root srcDir packageDir entries).1 →
      (str "../").isPrefixOf (relPathStr (normAbsParts s) (normAbsParts root)) = false ∧
      (str "../").isPrefixOf (relPathStr (normAbsParts d) (normAbsParts packageDir)) =
        false) := by
  refine ⟨?_, ?_, ?_⟩
  · intro env root entries d hok p hp
    obtain ⟨hcol, _⟩ := (getPathsToGitCheck_ok_iff env root entries d).mp hok
    obtain ⟨hall, hd⟩ := (collectGitPaths_ok_iff root entries [] d).mp hcol
    rw [hd] at hp
    rcases (dedup_foldl_mem root entries [] p).mp hp with hp | ⟨e, he, hep⟩
    · exact absurd hp (by simp)
    · rw [← hep]
      exact hall e he
  · intro env root entries e he hpre d hok
    obtain ⟨hcol, _⟩ := (getPathsToGitCheck_ok_iff env root entries d).mp hok
    obtain ⟨hall, _⟩ := (collectGitPaths_ok_iff root entries [] d).mp hcol
    rw [hall e he] at hpre
    exact absurd hpre (by simp)
  · intro root srcDir packageDir entries
    induction entries with
    | nil =>
      intro s d hmem
      exact absurd hmem (by simp [stageCopyTr])
    | cons e rest ih =>
      intro s d hmem
      rcases hr : stageCopyTr root srcDir packageDir rest with ⟨ws, err⟩
      cases e with
      | plain s0 =>
        simp only [stageCopyTr, hr] at hmem
        by_cases hsrc : (str "../").isPrefixOf (relPathStr
            (normAbsParts (absPathStr (normAbsParts (pathJoin root s0))))
            (normAbsParts root)) = true
        · rw [if_pos hsrc] at hmem
          exact absurd hmem (by simp)
        · rw [if_neg hsrc] at hmem
          by_cases hdst : (str "../").isPrefixOf (relPathStr
              (normAbsParts (pathJoin srcDir (relPathStr
                (normAbsParts (absPathStr (normAbsParts (pathJoin root s0))))
                (normAbsParts root))))
              (normAbsParts packageDir)) = true
          · rw [if_pos hdst] at hmem
            exact absurd hmem (by simp)
          · rw [if_neg hdst] at hmem
            simp only [List.mem_cons] at hmem
            rcases hmem with hmem | hmem
            · have hs := congrArg Prod.fst hmem
              have hd := congrArg Prod.snd hmem
              simp only at hs hd
              constructor
              · rw [hs]
                exact Bool.eq_false_iff.mpr hsrc
              · rw [hd]
                exact Bool.eq_false_iff.mpr hdst
            · exact ih s d (by rw [hr]; exact hmem)
      | pair s0 d0 =>
        simp only [stageCopyTr, hr] at hmem
        by_cases hsrc : (str "../").isPrefixOf (relPathStr
            (normAbsParts (absPathStr (normAbsParts (pathJoin root s0))))
            (normAbsParts root)) = true
        · rw [if_pos hsrc] at hmem
          exact absurd hmem (by simp)
        · rw [if_neg hsrc] at hmem
          by_cases hdst : (str "../").isPrefixOf (relPathStr
              (normAbsParts (pathJoin srcDir d0))
              (normAbsParts packageDir)) = true
          · rw [if_pos hdst] at hmem
            exact absurd hmem (by simp)
          · rw [if_neg hdst] at hmem
            simp only [List.mem_cons] at hmem
            rcases hmem with hmem | hmem
            · have hs := congrArg Prod.fst hmem
              have hd := congrArg Prod.snd hmem
              simp only at hs hd
              constructor
              · rw [hs]
                exact Bool.eq_false_iff.mpr hsrc
              · rw [hd]
                exact Bool.eq_false_iff.mpr hdst
            · exact ih s d (by rw [hr]; exact hmem)

theorem normalizeEntry_rx : normalizeEntry (str "/r") (str "../x") = str "../x" := by
  show relPathStr (normAbsParts (pathJoin (str "/r") (str "../x")))
    (normAbsParts (str "/r")) = str "../x"
  rw [show pathJoin (str "/r") (str "../x") = ['/', 'r', '/', '.', '.', '/', 'x'] from rfl,
    show str "/r" = ['/', 'r'] from rfl]
  simp [normAbsParts, pathSplit, splitSep, relPathStr, relSegs, List.intercalate,
    show str "." = ['.'] from rfl, show str ".." = ['.', '.'] from rfl,
    show str "/" = ['/'] from rfl,
    show str "../x" = ['.', '.', '/', 'x'] from rfl]

theorem stageCopyTr_b :
    stageCopyTr (str "/r") (str "/p/s") (str "/p") [CopyEntry.plain (str "b")] =
      ([(str "/r/b", str "/p/s/b")], none) := by
  simp [stageCopyTr, normAbsParts, pathSplit, splitSep, relPathStr, relSegs,
    absPathStr, pathJoin, isAbsP, List.intercalate, List.isPrefixOf,
    show str "." = ['.'] from rfl, show str ".." = ['.', '.'] from rfl,
    show str "/r" = ['/', 'r'] from rfl, show str "b" = ['b'] from rfl,
    show str "/p/s" = ['/', 'p', '/', 's'] from rfl, show str "/p" = ['/', 'p'] from rfl,
    show str "../" = ['.', '.', '/'] from rfl, show str "/" = ['/'] from rfl,
    show str "/r/b" = ['/', 'r', '/', 'b'] from rfl,
    show str "/p/s/b" = ['/', 'p', '/', 's', '/', 'b'] from rfl]

/-- Witness for C8: the accepted entry `b` yields a path not starting with
`../`; the entry `../x` (whose resolved relative path starts with `../`)
makes resolution fail; and the copy of `b` staged by the packaging loop
passes both relative-path checks. -/
theorem c8_escape_checks_witness :
    (str "../").isPrefixOf (str "b") = false ∧
    ¬ getPathsToGitCheck ⟨(fun _ => true), (fun _ => false)⟩ (str "/r")
        [str "../x"] = .ok [] ∧
    ((str "../").isPrefixOf (relPathStr (normAbsParts (str "/r/b"))
        (normAbsParts (str "/r"))) = false ∧
      (str "../").isPrefixOf (relPathStr (normAbsParts (str "/p/s/b"))
        (normAbsParts (str "/p"))) = false) := by
  refine ⟨?_, ?_, ?_⟩
  · exact c8_escape_checks.1 ⟨(fun _ => true), (fun _ => false)⟩ (str "/r")
      [str "b", str "a"] [str "b", str "a"] getPathsToGitCheck_ba (str "b") (by simp)
  · exact c8_escape_checks.2.1 ⟨(fun _ => true), (fun _ => false)⟩ (str "/r")
      [str "../x"] (str "../x") (by simp) (by rw [normalizeEntry_rx]; decide) []
  · exact c8_escape_checks.2.2 (str "/r") (str "/p/s") (str "/p")
      [CopyEntry.plain (str "b")] (str "/r/b") (str "/p/s/b")
      (by rw [stageCopyTr_b]; simp)
